import Mathlib

/-!
Verification of the asset-collection-and-delivery pipeline of the
`evil-downloader` browser extension (src/content.js, src/background.js).

The JavaScript sources are shallowly embedded: DOM state, host capabilities
(fetch, object-URL creation, the download facility, the optional js-beautify
engine) are explicit parameters; strings are Lean `String`s manipulated through
structural functions on `List Char` so that every definition evaluates by
kernel reduction.
-/

namespace EvilDL

/-! ## Character classes (JavaScript regex classes, ASCII range) -/

/-- Models the JS regex class `\s` (ASCII whitespace as used by the sources). -/
def isWS (c : Char) : Bool :=
  c = ' ' || c = '\t' || c = '\n' || c = '\r' || c = '\x0b' || c = '\x0c'

/-- Models the JS regex class `\w` = `[A-Za-z0-9_]`. -/
def jsWordChar (c : Char) : Bool :=
  ('a' ≤ c && c ≤ 'z') || ('A' ≤ c && c ≤ 'Z') || ('0' ≤ c && c ≤ '9') || c = '_'

/-- Models the JS regex class `[a-zA-Z_$]` used by the comma rule of
`basicBeautify`. -/
def isIdentStart (c : Char) : Bool :=
  ('a' ≤ c && c ≤ 'z') || ('A' ≤ c && c ≤ 'Z') || c = '_' || c = '$'

/-! ## Structural string helpers (models of JS String methods) -/

/-- Models `String.prototype.startsWith`. -/
def strStartsWith (s pre : String) : Bool :=
  pre.data.isPrefixOf s.data

/-- Models `String.prototype.endsWith`. -/
def strEndsWith (s suf : String) : Bool :=
  suf.data.reverse.isPrefixOf s.data.reverse

/-- Models `str.split(sep)` for a one-character separator (as used with
`'/'` and `'\n'` in the sources): JS `split` on a non-empty separator. -/
def splitOnChar (sep : Char) : List Char → List (List Char)
  | [] => [[]]
  | c :: rest =>
    if c = sep then [] :: splitOnChar sep rest
    else
      match splitOnChar sep rest with
      | h :: t => (c :: h) :: t
      | [] => [[c]]

/-- Models `String.prototype.trim` (strip leading and trailing whitespace). -/
def jsTrim (l : List Char) : List Char :=
  ((l.dropWhile isWS).reverse.dropWhile isWS).reverse

/-- Models `String.prototype.includes("js")` (substring test, as in
`asset.type.includes('js')`). -/
def includesJs : List Char → Bool
  | 'j' :: 's' :: _ => true
  | _ :: rest => includesJs rest
  | [] => false

/-- Models `str.includes(c)` for a single character. -/
def containsChar (l : List Char) (c : Char) : Bool :=
  l.any (fun d => d = c)

/-- JS truthiness of an optional string field: absent (`undefined`/`null`)
and the empty string are falsy, every other string is truthy. -/
def truthy : Option String → Bool
  | none => false
  | some s => !(s = "")

/-! ## content.js — utils.sanitizeFilename

`filename.replace(/[^\w\s.-]/gi, "_").replace(/\s+/g, "_")
        .replace(/_+/g, "_").substring(0, 200)`
-/

/-- First replace of `sanitizeFilename`: every character outside
`[\w\s.-]` becomes `_`. -/
def sanitizeStep1 (l : List Char) : List Char :=
  l.map (fun c => if jsWordChar c || isWS c || c = '.' || c = '-' then c else '_')

/-- Scanner for the second replace of `sanitizeFilename`: each maximal
whitespace run becomes a single `_`.  `inRun` records whether the previous
character belonged to a whitespace run whose `_` was already emitted. -/
def collapseWSGo : List Char → Bool → List Char
  | [], _ => []
  | c :: rest, inRun =>
    if isWS c then
      if inRun then collapseWSGo rest true else '_' :: collapseWSGo rest true
    else c :: collapseWSGo rest false

/-- Second replace of `sanitizeFilename`: `/\s+/g → "_"`. -/
def collapseWS (l : List Char) : List Char := collapseWSGo l false

/-- Scanner for the third replace of `sanitizeFilename`: each maximal run
of `_` becomes a single `_`. -/
def collapseUndGo : List Char → Bool → List Char
  | [], _ => []
  | c :: rest, inRun =>
    if c = '_' then
      if inRun then collapseUndGo rest true else '_' :: collapseUndGo rest true
    else c :: collapseUndGo rest false

/-- Third replace of `sanitizeFilename`: `/_+/g → "_"`. -/
def collapseUnd (l : List Char) : List Char := collapseUndGo l false

/-- The three replaces of `utils.sanitizeFilename`, before truncation. -/
def sanitizeCore (l : List Char) : List Char :=
  collapseUnd (collapseWS (sanitizeStep1 l))

/-- Models `utils.sanitizeFilename` (content.js lines 8-14). -/
def sanitizeFilename (s : String) : String :=
  String.mk ((sanitizeCore s.data).take 200)

/-! ## content.js — utils.getFilenameFromUrl

`new URL(url)` is a host capability; the embedding passes a parser
`parse : String → Option UrlParts` returning the parsed components
(`none` models the constructor throwing).
-/

/-- Components of a parsed URL, as read by `getFilenameFromUrl`. -/
structure UrlParts where
  pathname : String
  hostname : String
deriving DecidableEq

/-- Models `utils.getFilenameFromUrl` (content.js lines 17-28). -/
def getFilenameFromUrl (parse : String → Option UrlParts) (url : String) : String :=
  match parse url with
  | none => "unknown_file"
  | some u =>
    let segs := splitOnChar '/' u.pathname.data
    let filename := String.mk (segs.getLastD [])
    if filename = "" then u.hostname ++ "_index" else filename

/-! ## content.js — scanner data model -/

/-- A `<script>` element: `src` is the resolved `script.src` property when the
`src` attribute is present (`none` models `script:not([src])`);
`textContent` is the element body. -/
structure ScriptEl where
  src : Option String := none
  textContent : String := ""
deriving DecidableEq

/-- The page state read by the scanner: location, serialized markup, script
elements in document order, and the resolved `src` of each `iframe[src]`
element in document order. -/
structure Dom where
  href : String
  outerHTML : String
  scripts : List ScriptEl := []
  iframes : List String := []
deriving DecidableEq

/-- A scanned asset descriptor, the unit of work passed to the background
context.  Absent JS object fields are `none`. -/
structure Asset where
  url : Option String := none
  content : Option String := none
  filename : String
  type : String
deriving DecidableEq

/-- The free-form options object sent by the popup (absent fields are falsy,
hence the `false` defaults). -/
structure Options where
  includeInline : Bool := false
  prettifyJs : Bool := false
deriving DecidableEq

/-! ## content.js — scanner functions -/

/-- Models `scanner.getExternalScripts` (content.js lines 48-62): one
descriptor per `script[src]` whose resolved `src` starts with `http` or
`//`, name forced to end in `.js`. -/
def getExternalScripts (parse : String → Option UrlParts) :
    List ScriptEl → List Asset
  | [] => []
  | s :: rest =>
    match s.src with
    | some src =>
      if !(src = "") && (strStartsWith src "http" || strStartsWith src "//") then
        let filename := getFilenameFromUrl parse src
        { url := some src,
          filename := if strEndsWith filename ".js" then filename else filename ++ ".js",
          type := "external-js" } :: getExternalScripts parse rest
      else getExternalScripts parse rest
    | none => getExternalScripts parse rest

/-- The `forEach` body of `scanner.getInlineScripts`, with the running
`forEach` index over the `script:not([src])` node list made explicit. -/
def getInlineScriptsAux : List ScriptEl → Nat → List Asset
  | [], _ => []
  | s :: rest, i =>
    if !(s.textContent = "") && !(String.mk (jsTrim s.textContent.data) = "") then
      { content := some s.textContent,
        filename := "inline_script_" ++ Nat.repr (i + 1) ++ ".js",
        type := "inline-js" } :: getInlineScriptsAux rest (i + 1)
    else getInlineScriptsAux rest (i + 1)

/-- Models `scanner.getInlineScripts` (content.js lines 65-77): the node list
`script:not([src])` is enumerated with its `forEach` index; blank scripts are
skipped but still advance the index. -/
def getInlineScripts (scripts : List ScriptEl) : List Asset :=
  getInlineScriptsAux (scripts.filter (fun s => s.src.isNone)) 0

/-- Models `scanner.getCurrentPageHtml` (content.js lines 80-90). -/
def getCurrentPageHtml (parse : String → Option UrlParts) (dom : Dom) : Asset :=
  let url := dom.href
  let filename := getFilenameFromUrl parse url ++ ".html"
  { content := some dom.outerHTML,
    filename := sanitizeFilename filename,
    type := "html",
    url := some url }

/-- Models `scanner.getIframeHtml` (content.js lines 93-110). -/
def getIframeHtml (parse : String → Option UrlParts) : List String → List Asset
  | [] => []
  | src :: rest =>
    if !(src = "") && (strStartsWith src "http" || strStartsWith src "//") then
      let f0 := getFilenameFromUrl parse src
      let filename := if !(strEndsWith f0 ".html") then f0 ++ ".html" else f0
      { url := some src, filename := filename, type := "iframe-html" }
        :: getIframeHtml parse rest
    else getIframeHtml parse rest

/-- Models `scanner.scanAllAssets` (content.js lines 113-134): the `assets`
array is built by successive pushes, mirrored here by successive appends. -/
def scanAllAssets (parse : String → Option UrlParts) (dom : Dom)
    (options : Options) : List Asset :=
  let assets : List Asset := []
  let assets := assets ++ [getCurrentPageHtml parse dom]
  let assets := assets ++ getExternalScripts parse dom.scripts
  let assets :=
    if options.includeInline then assets ++ getInlineScripts dom.scripts else assets
  assets ++ getIframeHtml parse dom.iframes

/-! ## background.js — jsBeautify.basicBeautify

`code.replace(/;/g, ';\n').replace(/\{/g, '{\n').replace(/\}/g, '\n}\n')
     .replace(/,(\s*[a-zA-Z_$])/g, ',\n$1')
     .replace(/\n\s*\n/g, '\n').replace(/\n{3,}/g, '\n\n')`
then split / trim / indent-by-brace-count / join.
-/

/-- Replace `/;/g` with `";\n"`. -/
def replSemi : List Char → List Char
  | [] => []
  | c :: rest => if c = ';' then ';' :: '\n' :: replSemi rest else c :: replSemi rest

/-- Replace `/\x7b/g` (open brace) with the brace followed by a newline. -/
def replOpen : List Char → List Char
  | [] => []
  | c :: rest => if c = '{' then '{' :: '\n' :: replOpen rest else c :: replOpen rest

/-- Replace `/\x7d/g` (close brace) with the brace wrapped in newlines. -/
def replClose : List Char → List Char
  | [] => []
  | c :: rest =>
    if c = '}' then '\n' :: '}' :: '\n' :: replClose rest else c :: replClose rest

/-- One pass of `/,(\s*[a-zA-Z_$])/g → ',\n$1'`.  After a comma the scanner
buffers whitespace (`buf`, reversed); a following identifier-start character
completes a match and a `'\n'` is inserted after the comma, otherwise the
buffered text is emitted unchanged.  Greedy `\s*` with a one-character class
after it means only the maximal whitespace run can complete a match. -/
def replCommaGo : List Char → Bool → List Char → List Char
  | [], afterComma, buf => if afterComma then buf.reverse else []
  | c :: rest, false, _ =>
    if c = ',' then ',' :: replCommaGo rest true []
    else c :: replCommaGo rest false []
  | c :: rest, true, buf =>
    if isWS c then replCommaGo rest true (c :: buf)
    else if isIdentStart c then '\n' :: (buf.reverse ++ c :: replCommaGo rest false [])
    else buf.reverse ++
      (if c = ',' then ',' :: replCommaGo rest true []
       else c :: replCommaGo rest false [])

/-- Replace `/,(\s*[a-zA-Z_$])/g` with `',\n$1'`. -/
def replComma (l : List Char) : List Char := replCommaGo l false []

/-- One pass of `/\n\s*\n/g → '\n'`.  `pending = true` means a match-opening
newline has been read; `buf` (reversed) holds the whitespace read since the
most recent newline.  When the run ends, a single newline plus the whitespace
after the run's last newline is emitted — exactly the greedy, non-overlapping
JS semantics. -/
def collapseNlGo : List Char → Bool → List Char → List Char
  | [], false, _ => []
  | [], true, buf => '\n' :: buf.reverse
  | c :: rest, false, _ =>
    if c = '\n' then collapseNlGo rest true []
    else c :: collapseNlGo rest false []
  | c :: rest, true, buf =>
    if c = '\n' then collapseNlGo rest true []
    else if isWS c then collapseNlGo rest true (c :: buf)
    else '\n' :: (buf.reverse ++ c :: collapseNlGo rest false [])

/-- Replace `/\n\s*\n/g` with `'\n'`. -/
def collapseNl (l : List Char) : List Char := collapseNlGo l false []

/-- Emit a pending run of `n` newlines under the `/\n{3,}/g → "\n\n"` rule. -/
def flushNl (n : Nat) : List Char :=
  if 3 ≤ n then ['\n', '\n'] else List.replicate n '\n'

/-- One pass of `/\n{3,}/g → "\n\n"`, counting the pending newline run. -/
def tripleNlGo : List Char → Nat → List Char
  | [], n => flushNl n
  | c :: rest, n =>
    if c = '\n' then tripleNlGo rest (n + 1)
    else flushNl n ++ c :: tripleNlGo rest 0

/-- Replace `/\n{3,}/g` with two newlines. -/
def tripleNl (l : List Char) : List Char := tripleNlGo l 0

/-- The indentation string `'  '.repeat(level)`. -/
def indSp (level : Nat) : List Char := List.replicate (2 * level) ' '

/-- The `lines.map(...)` of `basicBeautify`: trim each line, drop the indent
level on a line containing a close brace, emit two spaces per level, raise
the level on a line containing an open brace.  (`map` with the mutable
`indentLevel` threaded through.) -/
def indentLines : List (List Char) → Nat → List (List Char)
  | [], _ => []
  | line :: rest, level =>
    let trimmed := jsTrim line
    if trimmed = [] then [] :: indentLines rest level
    else
      let level1 := if containsChar trimmed '}' then level - 1 else level
      let out := indSp level1 ++ trimmed
      let level2 := if containsChar trimmed '{' then level1 + 1 else level1
      out :: indentLines rest level2

/-- Models `indentedLines.join('\n')`. -/
def joinNl : List (List Char) → List Char
  | [] => []
  | [l] => l
  | l :: rest => l ++ '\n' :: joinNl rest

/-- Models `jsBeautify.basicBeautify` (background.js lines 43-86).  The
surrounding `try/catch` returns the input on an internal failure; no step of
the transform can fail, so the embedding is the straight-line pipeline. -/
def basicBeautify (code : String) : String :=
  let formatted :=
    tripleNl (collapseNl (replComma (replClose (replOpen (replSemi code.data)))))
  let lines := splitOnChar '\n' formatted
  String.mk (joinNl (indentLines lines 0))

/-! ## background.js — host capability surface -/

/-- The chrome.downloads.download options object built by `downloadFile`. -/
structure DlOpts where
  url : String
  filename : String
  saveAs : Bool
  conflictAction : String
deriving DecidableEq

/-- Host capabilities consumed by the background context.  `jsEngine` is the
optional `js_beautify` global (present iff the library loaded; a call may
throw).  `createObjectURL` may throw, triggering the data-URL fallback.
`fetchRaw url` models `fetch` resolving to `(status, body)` or rejecting.
`download` models `chrome.downloads.download` resolving to an id or
rejecting. -/
structure Env where
  jsEngine : Option (String → Except String String) := none
  createObjectURL : String → Except String String := fun _ => Except.error "unavailable"
  fetchRaw : String → Except String (Nat × String) := fun _ => Except.error "network error"
  download : DlOpts → Except String Nat := fun _ => Except.error "downloads unavailable"

/-- Models `jsBeautify.beautify` (background.js lines 88-118) as the body of
its `try` block: the primary engine when available (its exception propagates
to the `catch`), the heuristic fallback otherwise. -/
def beautifyBody (env : Env) (code : String) : Except String String :=
  match env.jsEngine with
  | some f => f code
  | none => Except.ok (basicBeautify code)

/-- Models `jsBeautify.beautify` with its `catch`: any thrown failure yields
the original code. -/
def beautify (env : Env) (code : String) : String :=
  match beautifyBody env code with
  | Except.ok r => r
  | Except.error _ => code

/-! ## background.js — downloadManager -/

/-- Models `downloadManager.getMimeType` (background.js lines 266-277). -/
def getMimeType (t : String) : String :=
  if t = "html" || t = "iframe-html" then "text/html"
  else if t = "external-js" || t = "inline-js" then "application/javascript"
  else "text/plain"

/-- The base64 alphabet used by `btoa`. -/
def base64Table : List Char :=
  "ABCDEFGHIJKLMNOPQRSTUVWXYZabcdefghijklmnopqrstuvwxyz0123456789+/".data

/-- One base64 digit. -/
def b64digit (n : Nat) : Char := base64Table.getD n '?'

/-- Base64 of a byte sequence. -/
def base64Encode : List Nat → List Char
  | [] => []
  | [a] => [b64digit (a / 4), b64digit (a % 4 * 16), '=', '=']
  | [a, b] => [b64digit (a / 4), b64digit (a % 4 * 16 + b / 16), b64digit (b % 16 * 4), '=']
  | a :: b :: c :: rest =>
    b64digit (a / 4) :: b64digit (a % 4 * 16 + b / 16) ::
      b64digit (b % 16 * 4 + c / 64) :: b64digit (c % 64) :: base64Encode rest

/-- Models `btoa(unescape(encodeURIComponent(content)))`: base64 of the
UTF-8 bytes. -/
def base64Utf8 (s : String) : String :=
  String.mk (base64Encode (s.toUTF8.toList.map (fun b => b.toNat)))

/-- Models `downloadManager.createDownloadUrl` (background.js lines 124-135).
Returns the URL together with the list of object URLs it materialized (one
when `URL.createObjectURL` succeeded, none on the data-URL fallback). -/
def createDownloadUrl (env : Env) (content : String) (mimeType : String) :
    String × List String :=
  match env.createObjectURL content with
  | Except.ok u => (u, [u])
  | Except.error _ =>
    ("data:" ++ mimeType ++ ";base64," ++ base64Utf8 content, [])

/-- Models `downloadManager.fetchExternalContent` (background.js lines
138-149): a rejected fetch or a non-2xx status (`!response.ok` throws into
the local `catch`) yields `null`. -/
def fetchExternalContent (env : Env) (url : String) : Option String :=
  match env.fetchRaw url with
  | Except.error _ => none
  | Except.ok (status, body) =>
    if 200 ≤ status && status ≤ 299 then some body else none

/-- The per-asset result object of `downloadFile`. -/
structure DlResult where
  success : Bool
  downloadId : Option Nat := none
  filename : String
  error : Option String := none
deriving DecidableEq

/-- The observable host effects of one `downloadFile` call: object URLs
materialized, revocations scheduled (URL and delay in ms), and
`chrome.downloads.download` invocations. -/
structure Trace where
  created : List String := []
  releases : List (String × Nat) := []
  calls : List DlOpts := []
deriving DecidableEq

/-- The content-resolution step of `downloadFile` (background.js lines
154-185): produce the URL to hand to the host (plus materialized handles), or
throw when the asset has neither content nor URL.  JS truthiness (`""` is
falsy) governs every test. -/
def resolveUrl (env : Env) (asset : Asset) (options : Options) :
    Except String (String × List String) :=
  if truthy asset.content then
    let c0 := asset.content.getD ""
    let c :=
      if options.prettifyJs && includesJs asset.type.data then beautify env c0 else c0
    Except.ok (createDownloadUrl env c (getMimeType asset.type))
  else if truthy asset.url then
    let u0 := asset.url.getD ""
    if options.prettifyJs && includesJs asset.type.data then
      match fetchExternalContent env u0 with
      | some c =>
        if c = "" then Except.ok (u0, [])
        else Except.ok (createDownloadUrl env (beautify env c) (getMimeType asset.type))
      | none => Except.ok (u0, [])
    else Except.ok (u0, [])
  else Except.error "Asset has no content or URL"

/-- The download options object built at background.js lines 193-198 (the
remove-undefined loop is a no-op: every field is set). -/
def dlOptsFor (u : String) (asset : Asset) : DlOpts :=
  { url := u,
    filename := "evil-downloads/" ++ asset.filename,
    saveAs := false,
    conflictAction := "uniquify" }

/-- Models `downloadManager.downloadFile` (background.js lines 152-243):
resolve the URL, call `chrome.downloads.download`, schedule the blob-URL
revocation 5000 ms later when the URL is a blob URL; any exception is caught
and recorded as a failed result. -/
def downloadFile (env : Env) (asset : Asset) (options : Options) :
    DlResult × Trace :=
  match resolveUrl env asset options with
  | Except.error e =>
    ({ success := false, filename := asset.filename, error := some e },
     { created := [], releases := [], calls := [] })
  | Except.ok (u, created) =>
    let dlo := dlOptsFor u asset
    match env.download dlo with
    | Except.error e =>
      ({ success := false, filename := asset.filename, error := some e },
       { created := created, releases := [], calls := [dlo] })
    | Except.ok id =>
      ({ success := true, downloadId := some id, filename := asset.filename },
       { created := created,
         releases := if strStartsWith u "blob:" then [(u, 5000)] else [],
         calls := [dlo] })

/-- Models `downloadManager.downloadFiles` (background.js lines 246-263): an
early return of `[]` on an empty batch, otherwise one sequential
`downloadFile` per asset with a pacing delay between iterations (the delay
has no observable effect on the results). -/
def downloadFiles (env : Env) (assets : List Asset) (options : Options) :
    List DlResult :=
  match assets with
  | [] => []
  | a :: rest => (downloadFile env a options).1 :: downloadFiles env rest options

/-- The aggregate sent back by the `downloadAssets` message handler. -/
structure Summary where
  total : Nat
  successful : Nat
  failed : Nat
deriving DecidableEq

/-- Models the `downloadAssets` branch of the background message listener
(background.js lines 282-296): run the batch, then count successes and
failures. -/
def handleDownloadAssets (env : Env) (assets : List Asset) (options : Options) :
    List DlResult × Summary :=
  let results := downloadFiles env assets options
  (results,
   { total := results.length,
     successful := (results.filter (fun r => r.success)).length,
     failed := (results.filter (fun r => !r.success)).length })

/-! ## Well-formatted input, for the heuristic-formatter round-trip property

The specification's "already-well-formatted input that contains no braces
adjacent to semicolons in ambiguous ways" is formalized generatively: a
`Doc` is a sequence of semicolon-terminated statements and brace-delimited
blocks, rendered with the formatter's own conventions (statement terminators
and open braces at end of line, each close brace alone on its line,
two-space indentation per nesting depth, a trailing newline, no blank
lines, and no commas or stray control characters inside a fragment).
-/

/-- A well-formatted script skeleton: statements (`t;`) and blocks
(`h{` … `}`), in sequence. -/
inductive Doc where
  | nil : Doc
  | stmt (t : String) (rest : Doc) : Doc
  | block (h : String) (body : Doc) (rest : Doc) : Doc

/-- One rendered line of a `Doc`, tagged with its nesting level: a
statement line, a block-opening line, or a block-closing line. -/
inductive BUnit where
  | semi (level : Nat) (t : List Char) : BUnit
  | bopen (level : Nat) (h : List Char) : BUnit
  | bclose (level : Nat) : BUnit

/-- The line sequence of a `Doc`, starting at nesting level `l`. -/
def unitsOf : Nat → Doc → List BUnit
  | _, Doc.nil => []
  | l, Doc.stmt t r => BUnit.semi l t.data :: unitsOf l r
  | l, Doc.block h b r =>
    BUnit.bopen l h.data :: (unitsOf (l + 1) b ++ BUnit.bclose l :: unitsOf l r)

/-- The rendered text of one line (without its newline). -/
def rawLine : BUnit → List Char
  | BUnit.semi l t => indSp l ++ t ++ [';']
  | BUnit.bopen l h => indSp l ++ h ++ ['{']
  | BUnit.bclose l => indSp l ++ ['}']

/-- One line after the three character replaces of `basicBeautify`
(terminator and open brace gain a newline, the close brace is wrapped in
newlines), including the line's own newline. -/
def unitA : BUnit → List Char
  | BUnit.semi l t => indSp l ++ t ++ [';', '\n', '\n']
  | BUnit.bopen l h => indSp l ++ h ++ ['{', '\n', '\n']
  | BUnit.bclose l => indSp l ++ ['\n', '}', '\n', '\n']

/-- One line after the newline-run collapse: single trailing newline, and the
close-brace line stripped of its indentation (the collapse consumes it). -/
def flatLine : BUnit → List Char
  | BUnit.semi l t => indSp l ++ t ++ [';', '\n']
  | BUnit.bopen l h => indSp l ++ h ++ ['{', '\n']
  | BUnit.bclose _ => ['}', '\n']

/-- `flatLine` without its trailing newline (the split-on-newline result). -/
def flatBody : BUnit → List Char
  | BUnit.semi l t => indSp l ++ t ++ [';']
  | BUnit.bopen l h => indSp l ++ h ++ ['{']
  | BUnit.bclose _ => ['}']

/-- Concatenation of a per-line rendering over a line sequence. -/
def catUnits (f : BUnit → List Char) : List BUnit → List Char
  | [] => []
  | u :: us => f u ++ catUnits f us

/-- One source line including its newline. -/
def srcOfUnit (u : BUnit) : List Char := rawLine u ++ ['\n']

/-- The rendered text of a `Doc`: its lines, each followed by a newline. -/
def renderDoc (d : Doc) : String :=
  String.mk (catUnits srcOfUnit (unitsOf 0 d))

/-- Characters allowed inside a statement or block-head fragment: anything
except the formatter's trigger characters (`;`, braces, `,`) and newline-like
whitespace. -/
def cleanFragChar (c : Char) : Bool :=
  decide (¬ c = ';' ∧ ¬ c = '{' ∧ ¬ c = '}' ∧ ¬ c = ',' ∧
    ¬ c = '\n' ∧ ¬ c = '\r' ∧ ¬ c = '\x0b' ∧ ¬ c = '\x0c')

/-- A clean fragment: every character allowed, and no leading whitespace
(trimming must not move the fragment off its indentation). -/
def cleanFrag (t : List Char) : Bool :=
  t.all cleanFragChar &&
    (match t with
     | [] => true
     | c :: _ => !isWS c)

/-- Cleanness of one rendered line. -/
def cleanUnit : BUnit → Bool
  | BUnit.semi _ t => cleanFrag t
  | BUnit.bopen _ h => cleanFrag h
  | BUnit.bclose _ => true

/-- Cleanness of a whole `Doc`. -/
def cleanDoc : Doc → Bool
  | Doc.nil => true
  | Doc.stmt t r => cleanFrag t.data && cleanDoc r
  | Doc.block h b r => cleanFrag h.data && cleanDoc b && cleanDoc r

/-- A string is well-formatted when it is the rendering of a clean `Doc`. -/
def WellFormatted (s : String) : Prop :=
  ∃ d : Doc, cleanDoc d = true ∧ s = renderDoc d

/-- Balanced line sequences: the block structure of the lines matches their
recorded nesting levels, starting and ending at level `l`. -/
inductive Bal : Nat → List BUnit → Prop
  | nil (l : Nat) : Bal l []
  | semi (l : Nat) (t : List Char) (us : List BUnit) :
      Bal l us → Bal l (BUnit.semi l t :: us)
  | block (l : Nat) (h : List Char) (body us : List BUnit) :
      Bal (l + 1) body → Bal l us →
      Bal l (BUnit.bopen l h :: (body ++ BUnit.bclose l :: us))

/-- Line sequences that do not begin with a close-brace line (every rendered
`Doc` satisfies this; a leading close brace would leave a blank first line
behind after the collapse). -/
def notCloseHead : List BUnit → Prop
  | BUnit.bclose _ :: _ => False
  | _ => True

/-- A concrete clean document used as the round-trip witness. -/
def docW : Doc :=
  Doc.block "if (a) " (Doc.stmt "b()" Doc.nil) (Doc.stmt "done()" Doc.nil)

/-! ## Spec-side predicates and concrete instances used by the theorems -/

/-- Spec-side predicate (written from the specification, for comparison with
the scanner output): the filename invariant regex, a string of 1 to 200
characters drawn from the class `[\w.-]`. -/
def matchesNameRegex (s : String) : Bool :=
  decide (1 ≤ s.data.length) && decide (s.data.length ≤ 200) &&
    s.data.all (fun c => jsWordChar c || c = '.' || c = '-')

/-- Concrete URL parser covering the URLs of the concrete pages below
(the values a browser `new URL` would return). -/
def parseX : String → Option UrlParts := fun u =>
  if u = "https://x.test/a@b.js" then
    some { pathname := "/a@b.js", hostname := "x.test" }
  else if u = "https://x.test/a.js" then
    some { pathname := "/a.js", hostname := "x.test" }
  else if u = "https://x.test/p" then
    some { pathname := "/p", hostname := "x.test" }
  else if u = "https://x.test/f.html" then
    some { pathname := "/f.html", hostname := "x.test" }
  else none

/-- Concrete page with a single external script whose URL carries an `@`. -/
def domAt : Dom :=
  { href := "https://x.test/p",
    outerHTML := "<html></html>",
    scripts := [{ src := some "https://x.test/a@b.js" }],
    iframes := [] }

/-- Concrete page with one external script, one inline script and one frame. -/
def domFull : Dom :=
  { href := "https://x.test/p",
    outerHTML := "<html></html>",
    scripts := [{ src := some "https://x.test/a.js" }, { textContent := "var z = 3" }],
    iframes := ["https://x.test/f.html"] }

/-- Concrete host environment of the spec scenario for claim C2: the fetch of
the referenced script answers HTTP 500, the download facility accepts every
request. -/
def envHttp500 : Env :=
  { jsEngine := none,
    createObjectURL := fun _ => Except.error "blob unavailable",
    fetchRaw := fun _ => Except.ok (500, "Internal Server Error"),
    download := fun _ => Except.ok 1 }

/-- The external-script descriptor of the C2 spec scenario. -/
def assetExtJs : Asset :=
  { url := some "https://x.test/a.js", filename := "a.js", type := "external-js" }

/-- Concrete host environment for claim C9: blob creation succeeds, the
download call rejects. -/
def envSaveFail : Env :=
  { jsEngine := none,
    createObjectURL := fun _ => Except.ok "blob:handle-1",
    fetchRaw := fun _ => Except.error "network error",
    download := fun _ => Except.error "Save failed" }

/-- A content-carrying descriptor (an inline script) used with `envSaveFail`. -/
def assetInline : Asset :=
  { content := some "alert(1)", filename := "inline_script_1.js", type := "inline-js" }

/-! ## Theorems -/

section Theorems

/-! ### Helper lemmas about the download orchestrator -/

theorem downloadFiles_nil (env : Env) (options : Options) :
    downloadFiles env [] options = [] := rfl

theorem downloadFiles_cons (env : Env) (a : Asset) (rest : List Asset)
    (options : Options) :
    downloadFiles env (a :: rest) options =
      (downloadFile env a options).1 :: downloadFiles env rest options := rfl

theorem downloadFiles_length (env : Env) (options : Options) :
    ∀ assets : List Asset, (downloadFiles env assets options).length = assets.length := by
  intro assets
  induction assets with
  | nil => rfl
  | cons a rest ih => simp [downloadFiles, ih]

theorem downloadFiles_getElem? (env : Env) (options : Options) :
    ∀ (assets : List Asset) (i : Nat),
      (downloadFiles env assets options)[i]? =
        (assets[i]?).map (fun a => (downloadFile env a options).1) := by
  intro assets
  induction assets with
  | nil => intro i; simp [downloadFiles]
  | cons a rest ih =>
    intro i
    cases i with
    | zero => simp [downloadFiles]
    | succ j => simp [downloadFiles, ih j]

theorem downloadFile_fail_msg (env : Env) (a : Asset) (options : Options)
    (h : (downloadFile env a options).1.success = false) :
    ((downloadFile env a options).1.error).isSome = true := by
  unfold downloadFile at *
  cases hr : resolveUrl env a options with
  | error e => simp [hr]
  | ok p =>
    obtain ⟨u, created⟩ := p
    cases hd : env.download (dlOptsFor u a) with
    | error e => simp [hr, hd]
    | ok id => simp [hr, hd] at h

theorem filterCounts (l : List DlResult) :
    (l.filter (fun r => r.success)).length +
      (l.filter (fun r => !r.success)).length = l.length := by
  induction l with
  | nil => rfl
  | cons a t ih =>
    cases ha : a.success <;> simp [List.filter_cons, ha] <;> omega

/-! ### Claim C4 -/

/-- Claim C4: `downloadFiles` produces exactly one result per descriptor, in
input order (position `i` of the output is the `downloadFile` result of
position `i` of the input), and a failed per-asset result always carries an
error message — an exception inside one asset's processing is recorded there
and the loop continues with the remaining descriptors. -/
theorem claim4_batch (env : Env) (assets : List Asset) (options : Options) :
    (downloadFiles env assets options).length = assets.length ∧
    (∀ i : Nat,
      (downloadFiles env assets options)[i]? =
        (assets[i]?).map (fun a => (downloadFile env a options).1)) ∧
    (∀ a : Asset, (downloadFile env a options).1.success = false →
      ((downloadFile env a options).1.error).isSome = true) :=
  ⟨downloadFiles_length env options assets,
   downloadFiles_getElem? env options assets,
   fun a => downloadFile_fail_msg env a options⟩

/-- Witness for claim C4 at a concrete two-asset batch whose second asset has
no origin: both results are present, in order, and the failing one carries a
message. -/
theorem claim4_batch_witness :
    (downloadFiles envHttp500 [assetExtJs, { filename := "b.js", type := "external-js" }] {}).length = 2 ∧
    (downloadFiles envHttp500 [assetExtJs, { filename := "b.js", type := "external-js" }] {})[1]? =
      some (downloadFile envHttp500 { filename := "b.js", type := "external-js" } {}).1 ∧
    ((downloadFile envHttp500 { filename := "b.js", type := "external-js" } {}).1.error).isSome = true := by
  have h := claim4_batch envHttp500 [assetExtJs, { filename := "b.js", type := "external-js" }] {}
  refine ⟨h.1, ?_, h.2.2 _ (by decide)⟩
  rw [h.2.1 1]; rfl

/-! ### Claim C5 -/

/-- Claim C5: the batch summary satisfies `total = length of the input`,
`failed = total - successful`, `total = successful + failed`, and the empty
batch yields an empty result list and the zero summary. -/
theorem claim5_summary (env : Env) (assets : List Asset) (options : Options) :
    (handleDownloadAssets env assets options).2.total = assets.length ∧
    (handleDownloadAssets env assets options).2.total =
      (handleDownloadAssets env assets options).2.successful +
        (handleDownloadAssets env assets options).2.failed ∧
    (handleDownloadAssets env assets options).2.failed =
      (handleDownloadAssets env assets options).2.total -
        (handleDownloadAssets env assets options).2.successful ∧
    handleDownloadAssets env [] options =
      ([], { total := 0, successful := 0, failed := 0 }) := by
  refine ⟨?_, ?_, ?_, rfl⟩
  · simp [handleDownloadAssets, downloadFiles_length]
  · simp [handleDownloadAssets, (filterCounts (downloadFiles env assets options)).symm]
  · have := filterCounts (downloadFiles env assets options)
    simp only [handleDownloadAssets]
    omega

/-! ### Claim C10 -/

/-- Claim C10: a descriptor with neither truthy inline content nor a truthy
reference URL yields a caught failure result carrying the message
`Asset has no content or URL`, and the batch continues past it. -/
theorem claim10_no_origin (env : Env) (a : Asset) (options : Options)
    (rest : List Asset)
    (hc : truthy a.content = false) (hu : truthy a.url = false) :
    (downloadFile env a options).1 =
      { success := false, downloadId := none, filename := a.filename,
        error := some "Asset has no content or URL" } ∧
    downloadFiles env (a :: rest) options =
      (downloadFile env a options).1 :: downloadFiles env rest options := by
  refine ⟨?_, rfl⟩
  unfold downloadFile resolveUrl
  simp [hc, hu]

/-- Witness for claim C10 at a concrete origin-less descriptor. -/
theorem claim10_no_origin_witness :
    truthy (Asset.mk none none "x.js" "external-js").content = false ∧
    truthy (Asset.mk none none "x.js" "external-js").url = false ∧
    (downloadFile {} (Asset.mk none none "x.js" "external-js") {}).1 =
      { success := false, downloadId := none, filename := "x.js",
        error := some "Asset has no content or URL" } :=
  ⟨rfl, rfl,
    (claim10_no_origin {} (Asset.mk none none "x.js" "external-js") {} [] rfl rfl).1⟩

/-! ### Claim C2 -/

/-- Claim C2: for a reference-origin script asset with `prettifyJs` set, a
failed fetch (rejection or non-2xx status, i.e. `fetchExternalContent`
returning `null`) makes the orchestrator download the original reference URL
directly — the single host download call carries exactly `asset.url`,
unmodified, no handle is materialized — and when that host call succeeds the
result is recorded as a success. -/
theorem claim2_fetch_fallback (env : Env) (a : Asset) (options : Options)
    (u : String) (id : Nat)
    (hc : truthy a.content = false) (hu : a.url = some u) (hne : ¬ u = "")
    (hp : options.prettifyJs = true) (hj : includesJs a.type.data = true)
    (hf : fetchExternalContent env u = none)
    (hd : env.download (dlOptsFor u a) = Except.ok id) :
    (downloadFile env a options).1 =
      { success := true, downloadId := some id, filename := a.filename } ∧
    (downloadFile env a options).2.calls = [dlOptsFor u a] ∧
    (dlOptsFor u a).url = u ∧
    (downloadFile env a options).2.created = [] := by
  have hu1 : truthy (some u) = true := by simp [truthy, hne]
  have hres : resolveUrl env a options = Except.ok (u, []) := by
    unfold resolveUrl
    simp [hc, hu, hu1, hp, hj, hf]
  unfold downloadFile
  rw [hres]
  dsimp only
  rw [hd]
  exact ⟨rfl, rfl, rfl, rfl⟩

/-- Witness for claim C2: the spec scenario — one external script at
`https://x.test/a.js`, beautification requested, fetch answering HTTP 500 —
ends in a successful direct-reference download saved as `a.js`. -/
theorem claim2_fetch_fallback_witness :
    (downloadFile envHttp500 assetExtJs { prettifyJs := true }).1 =
      { success := true, downloadId := some 1, filename := "a.js" } ∧
    (downloadFile envHttp500 assetExtJs { prettifyJs := true }).2.calls =
      [dlOptsFor "https://x.test/a.js" assetExtJs] := by
  have h := claim2_fetch_fallback envHttp500 assetExtJs { prettifyJs := true }
    "https://x.test/a.js" 1 rfl rfl (by decide) rfl (by decide) rfl rfl
  exact ⟨h.1, h.2.1⟩

/-! ### Claim C3 -/

/-- Claim C3: `beautify` is a total `String → String` function whose failure
behaviour is fail-open — when the primary engine is absent it returns the
(total) heuristic result, when the primary engine is present and throws it
returns the input unchanged, and when the engine succeeds it returns the
engine output. -/
theorem claim3_beautify_total (env : Env) (code : String) :
    (env.jsEngine = none → beautify env code = basicBeautify code) ∧
    (∀ f, env.jsEngine = some f →
      (∀ e, f code = Except.error e → beautify env code = code) ∧
      (∀ r, f code = Except.ok r → beautify env code = r)) := by
  constructor
  · intro h; unfold beautify beautifyBody; rw [h]
  · intro f hf
    refine ⟨fun e he => ?_, fun r hr => ?_⟩
    · unfold beautify beautifyBody; rw [hf]; dsimp only; rw [he]
    · unfold beautify beautifyBody; rw [hf]; dsimp only; rw [hr]

/-- Witness for claim C3: a crashing engine is fail-open on a concrete
input, and the engine-less environment takes the heuristic path. -/
theorem claim3_beautify_total_witness :
    beautify { jsEngine := some (fun _ => Except.error "engine crash") } "var a=1;"
      = "var a=1;" ∧
    beautify {} "var a=1;" = basicBeautify "var a=1;" :=
  ⟨((claim3_beautify_total { jsEngine := some (fun _ => Except.error "engine crash") }
      "var a=1;").2 _ rfl).1 "engine crash" rfl,
   (claim3_beautify_total {} "var a=1;").1 rfl⟩

/-! ### Claim C9 -/

/-- Counterexample to claim C9 as stated: at a concrete content-carrying
asset whose blob URL is materialized but whose host download call rejects,
the per-asset operation exits on the failure path with one created handle
and no scheduled release — the release is not scheduled on every exit path,
and the handle leaks. -/
theorem claim9_release_cex :
    (downloadFile envSaveFail assetInline {}).2.created = ["blob:handle-1"] ∧
    (downloadFile envSaveFail assetInline {}).2.releases = [] ∧
    (downloadFile envSaveFail assetInline {}).1.success = false :=
  ⟨rfl, rfl, rfl⟩

/-- Claim C9 amended: a release of the materialized URL (with the fixed
5000 ms grace period) is scheduled only on the success exit path — after the
host download call succeeds and only when the URL is a blob URL; on a failure
exit after materialization no release is scheduled (the handle is leaked). -/
theorem claim9_release (env : Env) (a : Asset) (options : Options)
    (u : String) (created : List String)
    (hres : resolveUrl env a options = Except.ok (u, created)) :
    (∀ id, env.download (dlOptsFor u a) = Except.ok id →
      (downloadFile env a options).2.releases =
        (if strStartsWith u "blob:" then [(u, 5000)] else [])) ∧
    (∀ e, env.download (dlOptsFor u a) = Except.error e →
      (downloadFile env a options).2.releases = []) := by
  constructor
  · intro id hd
    unfold downloadFile
    rw [hres]; dsimp only; rw [hd]
  · intro e hd
    unfold downloadFile
    rw [hres]; dsimp only; rw [hd]

/-- Witness for the amended claim C9: with a succeeding download facility the
release of the blob handle is scheduled with the 5000 ms delay. -/
theorem claim9_release_witness :
    (downloadFile
        { envSaveFail with download := fun _ => Except.ok 3 }
        assetInline {}).2.releases = [("blob:handle-1", 5000)] := by
  have h := claim9_release { envSaveFail with download := fun _ => Except.ok 3 }
    assetInline {} "blob:handle-1" ["blob:handle-1"] rfl
  rw [(h.1 3 rfl : _)]
  rfl

/-! ### Helper lemmas about the scanner -/

theorem getExternalScripts_type (parse : String → Option UrlParts) :
    ∀ scripts, ∀ a ∈ getExternalScripts parse scripts, a.type = "external-js" := by
  intro scripts
  induction scripts with
  | nil => intro a ha; simp [getExternalScripts] at ha
  | cons s rest ih =>
    intro a ha
    rcases hsrc : s.src with _ | src
    · simp only [getExternalScripts, hsrc] at ha
      exact ih a ha
    · simp only [getExternalScripts, hsrc] at ha
      split at ha
      · rcases List.mem_cons.mp ha with h | h
        · subst h; rfl
        · exact ih a h
      · exact ih a ha

theorem getIframeHtml_type (parse : String → Option UrlParts) :
    ∀ iframes, ∀ a ∈ getIframeHtml parse iframes, a.type = "iframe-html" := by
  intro iframes
  induction iframes with
  | nil => intro a ha; simp [getIframeHtml] at ha
  | cons src rest ih =>
    intro a ha
    simp only [getIframeHtml] at ha
    split at ha
    · rcases List.mem_cons.mp ha with h | h
      · subst h; rfl
      · exact ih a h
    · exact ih a ha

theorem getInlineScriptsAux_type :
    ∀ l i, ∀ a ∈ getInlineScriptsAux l i, a.type = "inline-js" := by
  intro l
  induction l with
  | nil => intro i a ha; simp [getInlineScriptsAux] at ha
  | cons s rest ih =>
    intro i a ha
    simp only [getInlineScriptsAux] at ha
    split at ha
    · rcases List.mem_cons.mp ha with h | h
      · subst h; rfl
      · exact ih _ a h
    · exact ih _ a ha

theorem getInlineScripts_type (scripts : List ScriptEl) :
    ∀ a ∈ getInlineScripts scripts, a.type = "inline-js" :=
  getInlineScriptsAux_type _ 0

theorem scanAllAssets_eq (parse : String → Option UrlParts) (dom : Dom)
    (options : Options) :
    scanAllAssets parse dom options =
      getCurrentPageHtml parse dom ::
        (getExternalScripts parse dom.scripts ++
         (if options.includeInline then getInlineScripts dom.scripts else []) ++
         getIframeHtml parse dom.iframes) := by
  unfold scanAllAssets
  dsimp only
  cases hinc : options.includeInline <;> simp [List.append_assoc]

/-! ### Claim C6 -/

/-- Claim C6: the scan result is ordered page HTML first, then external
scripts, then inline scripts (only when `includeInline` is set), then frame
documents, each segment in document order; the first descriptor is always the
page-HTML descriptor, kinds are as listed, and exactly one descriptor of the
page-HTML kind occurs. -/
theorem claim6_scan_order (parse : String → Option UrlParts) (dom : Dom)
    (options : Options) :
    scanAllAssets parse dom options =
      getCurrentPageHtml parse dom ::
        (getExternalScripts parse dom.scripts ++
         (if options.includeInline then getInlineScripts dom.scripts else []) ++
         getIframeHtml parse dom.iframes) ∧
    (scanAllAssets parse dom options).head? = some (getCurrentPageHtml parse dom) ∧
    (getCurrentPageHtml parse dom).type = "html" ∧
    (∀ a ∈ getExternalScripts parse dom.scripts, a.type = "external-js") ∧
    (∀ a ∈ getInlineScripts dom.scripts, a.type = "inline-js") ∧
    (∀ a ∈ getIframeHtml parse dom.iframes, a.type = "iframe-html") ∧
    ((scanAllAssets parse dom options).filter (fun a => a.type == "html")).length = 1 := by
  refine ⟨scanAllAssets_eq parse dom options, ?_, rfl,
    getExternalScripts_type parse dom.scripts,
    getInlineScripts_type dom.scripts,
    getIframeHtml_type parse dom.iframes, ?_⟩
  · rw [scanAllAssets_eq]; rfl
  · rw [scanAllAssets_eq]
    rw [List.filter_cons]
    have hrest :
        (getExternalScripts parse dom.scripts ++
          (if options.includeInline then getInlineScripts dom.scripts else []) ++
          getIframeHtml parse dom.iframes).filter (fun a => a.type == "html") = [] := by
      rw [List.filter_eq_nil_iff]
      intro a ha
      rcases List.mem_append.mp ha with h | h
      · rcases List.mem_append.mp h with h1 | h1
        · rw [show a.type = "external-js" from
            getExternalScripts_type parse dom.scripts a h1]
          decide
        · have : a.type = "inline-js" := by
            rcases hoi : options.includeInline with _ | _
            · rw [hoi] at h1; simp at h1
            · rw [hoi] at h1; exact getInlineScripts_type dom.scripts a h1
          rw [this]; decide
      · rw [show a.type = "iframe-html" from getIframeHtml_type parse dom.iframes a h]
        decide
    rw [hrest]
    rfl

/-- Witness for claim C6 on a concrete page carrying one external script, one
inline script and one frame: the head is the page descriptor and the kind
facts hold at concrete members. -/
theorem claim6_scan_order_witness :
    (scanAllAssets parseX domFull { includeInline := true }).head? =
      some (getCurrentPageHtml parseX domFull) ∧
    ({ url := some "https://x.test/a.js", filename := "a.js",
       type := "external-js" } : Asset).type = "external-js" := by
  have h := claim6_scan_order parseX domFull { includeInline := true }
  exact ⟨h.2.1, h.2.2.2.1 _ (by decide)⟩

/-! ### Claim C7 -/

/-- Counterexample to claim C7 as stated: on a page whose first source-less
script is blank and whose second is `x`, the first (and only) emitted
inline descriptor is named `inline_script_2.js`, not `inline_script_1.js` —
the index counts script elements, not emitted descriptors. -/
theorem claim7_inline_names_cex :
    getInlineScripts
        [{ src := none, textContent := "   " }, { src := none, textContent := "x" }] =
      [{ url := none, content := some "x", filename := "inline_script_2.js",
         type := "inline-js" }] ∧
    ¬ ("inline_script_2.js" = "inline_script_" ++ Nat.repr 1 ++ ".js") := by
  exact ⟨rfl, by decide⟩

theorem getInlineScriptsAux_names :
    ∀ (l : List ScriptEl) (j k : Nat) (a : Asset),
      (getInlineScriptsAux l j)[k]? = some a →
      ∃ i el, l[i]? = some el ∧ k ≤ i ∧
        ¬ (el.textContent = "") ∧ ¬ (String.mk (jsTrim el.textContent.data) = "") ∧
        a = { url := none, content := some el.textContent,
              filename := "inline_script_" ++ Nat.repr (j + i + 1) ++ ".js",
              type := "inline-js" } := by
  intro l
  induction l with
  | nil => intro j k a h; simp [getInlineScriptsAux] at h
  | cons s rest ih =>
    intro j k a h
    simp only [getInlineScriptsAux] at h
    split at h
    case isTrue hcond =>
      have hcond2 : ¬ (s.textContent = "") ∧
          ¬ (String.mk (jsTrim s.textContent.data) = "") := by
        simpa using hcond
      cases k with
      | zero =>
        rw [List.getElem?_cons_zero] at h
        have ha := Option.some.inj h
        refine ⟨0, s, by simp, Nat.zero_le 0, hcond2.1, hcond2.2, ?_⟩
        rw [← ha]
      | succ k =>
        rw [List.getElem?_cons_succ] at h
        obtain ⟨i, el, hel, hk, h1, h2, h3⟩ := ih (j + 1) k a h
        refine ⟨i + 1, el, ?_, Nat.succ_le_succ hk, h1, h2, ?_⟩
        · rw [List.getElem?_cons_succ]; exact hel
        · rw [h3]
          have h4 : j + 1 + i + 1 = j + (i + 1) + 1 := by omega
          rw [h4]
    case isFalse hcond =>
      obtain ⟨i, el, hel, hk, h1, h2, h3⟩ := ih (j + 1) k a h
      refine ⟨i + 1, el, ?_, Nat.le_succ_of_le hk, h1, h2, ?_⟩
      · rw [List.getElem?_cons_succ]; exact hel
      · rw [h3]
        have h4 : j + 1 + i + 1 = j + (i + 1) + 1 := by omega
        rw [h4]

/-- Claim C7 amended: the `k`-th emitted inline descriptor (0-based) is named
`inline_script_<i+1>.js` where `i` is the 0-based position of its script
element among all source-less script elements in document order — blank
source-less scripts advance the numbering even though they emit nothing, so
`i` can exceed `k`; the emitted content is the element's body, which is
non-blank. -/
theorem claim7_inline_names (scripts : List ScriptEl) (k : Nat) (a : Asset)
    (h : (getInlineScripts scripts)[k]? = some a) :
    ∃ i el, (scripts.filter (fun s => s.src.isNone))[i]? = some el ∧ k ≤ i ∧
      ¬ (el.textContent = "") ∧ ¬ (String.mk (jsTrim el.textContent.data) = "") ∧
      a = { url := none, content := some el.textContent,
            filename := "inline_script_" ++ Nat.repr (i + 1) ++ ".js",
            type := "inline-js" } := by
  obtain ⟨i, el, hel, hk, h1, h2, h3⟩ :=
    getInlineScriptsAux_names (scripts.filter (fun s => s.src.isNone)) 0 k a h
  exact ⟨i, el, hel, hk, h1, h2, by rw [h3]; rw [Nat.zero_add]⟩

/-- Witness for the amended claim C7 on a concrete script list. -/
theorem claim7_inline_names_witness :
    ∃ i el,
      (([{ src := none, textContent := "var q = 1" }] : List ScriptEl).filter
          (fun s => s.src.isNone))[i]? = some el ∧ 0 ≤ i ∧
      ¬ (el.textContent = "") ∧ ¬ (String.mk (jsTrim el.textContent.data) = "") ∧
      ({ url := none, content := some "var q = 1",
         filename := "inline_script_1.js", type := "inline-js" } : Asset) =
        { url := none, content := some el.textContent,
          filename := "inline_script_" ++ Nat.repr (i + 1) ++ ".js",
          type := "inline-js" } :=
  claim7_inline_names [{ src := none, textContent := "var q = 1" }] 0 _ rfl

/-! ### Helper lemmas about sanitizeFilename -/

theorem collapseWSGo_length (l : List Char) :
    ∀ st, (collapseWSGo l st).length ≤ l.length := by
  induction l with
  | nil => intro st; simp [collapseWSGo]
  | cons c rest ih =>
    intro st
    simp only [collapseWSGo]
    split
    · split
      · have := ih true; simp only [List.length_cons]; omega
      · have := ih true; simp only [List.length_cons]; omega
    · have := ih false; simp only [List.length_cons]; omega

theorem collapseUndGo_length (l : List Char) :
    ∀ st, (collapseUndGo l st).length ≤ l.length := by
  induction l with
  | nil => intro st; simp [collapseUndGo]
  | cons c rest ih =>
    intro st
    simp only [collapseUndGo]
    split
    · split
      · have := ih true; simp only [List.length_cons]; omega
      · have := ih true; simp only [List.length_cons]; omega
    · have := ih false; simp only [List.length_cons]; omega

theorem collapseWSGo_mem (l : List Char) :
    ∀ st c, c ∈ collapseWSGo l st → c = '_' ∨ (c ∈ l ∧ isWS c = false) := by
  induction l with
  | nil => intro st c hc; simp [collapseWSGo] at hc
  | cons d rest ih =>
    intro st c hc
    simp only [collapseWSGo] at hc
    split at hc
    · split at hc
      · rcases ih true c hc with h | ⟨h1, h2⟩
        · exact Or.inl h
        · exact Or.inr ⟨List.mem_cons_of_mem d h1, h2⟩
      · rcases List.mem_cons.mp hc with h | h
        · exact Or.inl h
        · rcases ih true c h with h2 | ⟨h2, h3⟩
          · exact Or.inl h2
          · exact Or.inr ⟨List.mem_cons_of_mem d h2, h3⟩
    · rename_i hws
      rcases List.mem_cons.mp hc with h | h
      · subst h
        exact Or.inr ⟨List.mem_cons_self _ _, by simpa using hws⟩
      · rcases ih false c h with h2 | ⟨h2, h3⟩
        · exact Or.inl h2
        · exact Or.inr ⟨List.mem_cons_of_mem d h2, h3⟩

theorem collapseUndGo_mem (l : List Char) :
    ∀ st c, c ∈ collapseUndGo l st → c = '_' ∨ c ∈ l := by
  induction l with
  | nil => intro st c hc; simp [collapseUndGo] at hc
  | cons d rest ih =>
    intro st c hc
    simp only [collapseUndGo] at hc
    split at hc
    · split at hc
      · rcases ih true c hc with h | h
        · exact Or.inl h
        · exact Or.inr (List.mem_cons_of_mem d h)
      · rcases List.mem_cons.mp hc with h | h
        · exact Or.inl h
        · rcases ih true c h with h2 | h2
          · exact Or.inl h2
          · exact Or.inr (List.mem_cons_of_mem d h2)
    · rcases List.mem_cons.mp hc with h | h
      · subst h; exact Or.inr (List.mem_cons_self _ _)
      · rcases ih false c h with h2 | h2
        · exact Or.inl h2
        · exact Or.inr (List.mem_cons_of_mem d h2)

theorem sanitizeStep1_mem (l : List Char) :
    ∀ c ∈ sanitizeStep1 l, (jsWordChar c || isWS c || c = '.' || c = '-') = true := by
  intro c hc
  rcases List.mem_map.mp hc with ⟨d, _, rfl⟩
  by_cases h : (jsWordChar d || isWS d || d = '.' || d = '-') = true
  · rw [if_pos h]; exact h
  · rw [if_neg h]; decide

theorem sanitizeCore_mem (l : List Char) :
    ∀ c ∈ sanitizeCore l, (jsWordChar c || c = '.' || c = '-') = true := by
  intro c hc
  rcases collapseUndGo_mem _ _ _ hc with h | h
  · subst h; decide
  · rcases collapseWSGo_mem _ _ _ h with h2 | ⟨h2, h3⟩
    · subst h2; decide
    · have h4 := sanitizeStep1_mem l c h2
      simp only [Bool.or_eq_true] at h4 ⊢
      rcases h4 with ((hw | hws) | hd) | hh
      · exact Or.inl (Or.inl hw)
      · rw [hws] at h3; exact absurd h3 (by simp)
      · exact Or.inl (Or.inr hd)
      · exact Or.inr hh

theorem collapseWSGo_ne_nil (c : Char) (rest : List Char) :
    ¬ collapseWSGo (c :: rest) false = [] := by
  simp only [collapseWSGo]
  split <;> simp

theorem collapseUndGo_ne_nil (c : Char) (rest : List Char) :
    ¬ collapseUndGo (c :: rest) false = [] := by
  simp only [collapseUndGo]
  split <;> simp

theorem sanitizeCore_ne_nil (l : List Char) (hl : ¬ l = []) :
    ¬ sanitizeCore l = [] := by
  unfold sanitizeCore collapseWS collapseUnd
  rcases hs : sanitizeStep1 l with _ | ⟨d, t⟩
  · have h2 := congrArg List.length hs
    simp only [sanitizeStep1, List.length_map, List.length_nil] at h2
    exact absurd (List.eq_nil_of_length_eq_zero h2) hl
  · rcases h : collapseWSGo (d :: t) false with _ | ⟨e, t2⟩
    · exact absurd h (collapseWSGo_ne_nil _ _)
    · exact collapseUndGo_ne_nil e t2

theorem sanitizeCore_length_le (l : List Char) :
    (sanitizeCore l).length ≤ l.length := by
  unfold sanitizeCore collapseWS collapseUnd
  calc (collapseUndGo (collapseWSGo (sanitizeStep1 l) false) false).length
      ≤ (collapseWSGo (sanitizeStep1 l) false).length := collapseUndGo_length _ _
    _ ≤ (sanitizeStep1 l).length := collapseWSGo_length _ _
    _ = l.length := List.length_map _ _

theorem sanitizeStep1_append (a b : List Char) :
    sanitizeStep1 (a ++ b) = sanitizeStep1 a ++ sanitizeStep1 b :=
  List.map_append _ a b

theorem collapseWSGo_append (d : Char) (bs : List Char) (hd : isWS d = false) :
    ∀ (l : List Char) (st : Bool),
      collapseWSGo (l ++ d :: bs) st =
        collapseWSGo l st ++ collapseWSGo (d :: bs) false := by
  intro l
  induction l with
  | nil => intro st; simp [collapseWSGo, hd]
  | cons c t ih =>
    intro st
    simp only [List.cons_append, collapseWSGo, List.append_eq]
    split
    · split
      · rw [ih true]; simp [collapseWSGo, hd, List.cons_append]
      · rw [ih true]; simp [collapseWSGo, hd, List.cons_append]
    · rw [ih false]; simp [collapseWSGo, hd, List.cons_append]

theorem collapseUndGo_append (d : Char) (bs : List Char) (hd : ¬ d = '_') :
    ∀ (l : List Char) (st : Bool),
      collapseUndGo (l ++ d :: bs) st =
        collapseUndGo l st ++ collapseUndGo (d :: bs) false := by
  intro l
  induction l with
  | nil => intro st; simp [collapseUndGo, hd]
  | cons c t ih =>
    intro st
    simp only [List.cons_append, collapseUndGo, List.append_eq]
    split
    · split
      · rw [ih true]; simp [collapseUndGo, hd, List.cons_append]
      · rw [ih true]; simp [collapseUndGo, hd, List.cons_append]
    · rw [ih false]; simp [collapseUndGo, hd, List.cons_append]

theorem sanitizeCore_append_html (l : List Char) :
    sanitizeCore (l ++ ".html".data) = sanitizeCore l ++ ".html".data := by
  unfold sanitizeCore collapseWS collapseUnd
  rw [show (".html".data) = '.' :: ['h', 't', 'm', 'l'] from rfl]
  rw [sanitizeStep1_append]
  rw [show sanitizeStep1 ('.' :: ['h', 't', 'm', 'l']) = '.' :: ['h', 't', 'm', 'l']
    from rfl]
  rw [collapseWSGo_append '.' ['h', 't', 'm', 'l'] (by decide)]
  rw [show collapseWSGo ('.' :: ['h', 't', 'm', 'l']) false = '.' :: ['h', 't', 'm', 'l']
    from rfl]
  rw [collapseUndGo_append '.' ['h', 't', 'm', 'l'] (by decide)]
  rw [show collapseUndGo ('.' :: ['h', 't', 'm', 'l']) false = '.' :: ['h', 't', 'm', 'l']
    from rfl]

theorem isPrefixOf_self_append (l t : List Char) : l.isPrefixOf (l ++ t) = true := by
  rw [List.isPrefixOf_iff_prefix]
  exact List.prefix_append _ _

theorem strEndsWith_append (x suf : String) : strEndsWith (x ++ suf) suf = true := by
  unfold strEndsWith
  rw [String.data_append, List.reverse_append]
  exact isPrefixOf_self_append _ _

theorem matchesNameRegex_sanitize (s : String) (hs : ¬ s.data = []) :
    matchesNameRegex (sanitizeFilename s) = true := by
  unfold matchesNameRegex sanitizeFilename
  have hne : ¬ sanitizeCore s.data = [] := sanitizeCore_ne_nil s.data hs
  have hlen1 : 1 ≤ (sanitizeCore s.data).length := by
    rcases h : sanitizeCore s.data with _ | ⟨c, t⟩
    · exact absurd h hne
    · simp
  simp only [Bool.and_eq_true, decide_eq_true_eq, List.all_eq_true]
  refine ⟨⟨?_, ?_⟩, ?_⟩
  · rw [List.length_take]; omega
  · rw [List.length_take]; omega
  · intro c hc
    exact sanitizeCore_mem s.data c (List.take_subset _ _ hc)

theorem sanitizeFilename_endsWith_html (x : String) (h : x.data.length ≤ 195) :
    strEndsWith (sanitizeFilename (x ++ ".html")) ".html" = true := by
  unfold sanitizeFilename
  rw [String.data_append, sanitizeCore_append_html]
  have hlen : (sanitizeCore x.data ++ ".html".data).length ≤ 200 := by
    rw [List.length_append]
    have := sanitizeCore_length_le x.data
    have h5 : (".html".data).length = 5 := rfl
    omega
  rw [List.take_of_length_le hlen]
  unfold strEndsWith
  rw [show (String.mk (sanitizeCore x.data ++ ".html".data)).data
    = sanitizeCore x.data ++ ".html".data from rfl]
  rw [List.reverse_append]
  exact isPrefixOf_self_append _ _

theorem getExternalScripts_endsWith (parse : String → Option UrlParts) :
    ∀ scripts, ∀ a ∈ getExternalScripts parse scripts,
      strEndsWith a.filename ".js" = true := by
  intro scripts
  induction scripts with
  | nil => intro a ha; simp [getExternalScripts] at ha
  | cons s rest ih =>
    intro a ha
    rcases hsrc : s.src with _ | src
    · simp only [getExternalScripts, hsrc] at ha
      exact ih a ha
    · simp only [getExternalScripts, hsrc] at ha
      split at ha
      · rcases List.mem_cons.mp ha with h | h
        · subst h
          rcases hj : strEndsWith (getFilenameFromUrl parse src) ".js" with _ | _
          · simp only [hj, Bool.false_eq_true, if_false]
            exact strEndsWith_append _ _
          · simp only [hj, if_true]
        · exact ih a h
      · exact ih a ha

theorem getInlineScriptsAux_filename :
    ∀ (l : List ScriptEl) (i : Nat), ∀ a ∈ getInlineScriptsAux l i,
      ∃ n, a.filename = "inline_script_" ++ Nat.repr n ++ ".js" := by
  intro l
  induction l with
  | nil => intro i a ha; simp [getInlineScriptsAux] at ha
  | cons s rest ih =>
    intro i a ha
    simp only [getInlineScriptsAux] at ha
    split at ha
    · rcases List.mem_cons.mp ha with h | h
      · subst h; exact ⟨i + 1, rfl⟩
      · exact ih _ a h
    · exact ih _ a ha

theorem getIframeHtml_endsWith (parse : String → Option UrlParts) :
    ∀ iframes, ∀ a ∈ getIframeHtml parse iframes,
      strEndsWith a.filename ".html" = true := by
  intro iframes
  induction iframes with
  | nil => intro a ha; simp [getIframeHtml] at ha
  | cons src rest ih =>
    intro a ha
    simp only [getIframeHtml] at ha
    split at ha
    · rcases List.mem_cons.mp ha with h | h
      · subst h
        rcases hh : strEndsWith (getFilenameFromUrl parse src) ".html" with _ | _
        · simp only [hh, Bool.not_false, if_true]
          exact strEndsWith_append _ _
        · simp only [hh, Bool.not_true, Bool.false_eq_true, if_false]
      · exact ih a h
    · exact ih a ha

/-! ### Claim C1 -/

/-- Counterexample to claim C1 as stated: on a concrete page whose only
external script lives at `https://x.test/a@b.js`, the scan emits an
external-script descriptor named `a@b.js` — taken from the URL without
sanitization — which does not match the claimed regex `[\w.-]` with 1 to 200
repetitions (`@` is outside the class). -/
theorem claim1_names_cex :
    (scanAllAssets parseX domAt {})[1]? =
      some { url := some "https://x.test/a@b.js", content := none,
             filename := "a@b.js", type := "external-js" } ∧
    matchesNameRegex "a@b.js" = false := by
  exact ⟨rfl, by decide⟩

/-- Claim C1 amended: only the page-HTML descriptor's name is sanitized, and
it matches `^[\w.-]\x7b1,200\x7d` (and keeps its `.html` extension whenever the
URL-derived base name is at most 195 characters, so that the 200-character
truncation cannot cut the extension); inline-script names have the shape
`inline_script_<n>.js`; external-script and frame names are taken from the
URL unsanitized and are only guaranteed to end in `.js` resp. `.html`. -/
theorem claim1_names (parse : String → Option UrlParts) (dom : Dom)
    (hlen : (getFilenameFromUrl parse dom.href).data.length ≤ 195) :
    matchesNameRegex (getCurrentPageHtml parse dom).filename = true ∧
    strEndsWith (getCurrentPageHtml parse dom).filename ".html" = true ∧
    (∀ a ∈ getExternalScripts parse dom.scripts,
      strEndsWith a.filename ".js" = true) ∧
    (∀ a ∈ getInlineScripts dom.scripts,
      (∃ n, a.filename = "inline_script_" ++ Nat.repr n ++ ".js") ∧
      strEndsWith a.filename ".js" = true) ∧
    (∀ a ∈ getIframeHtml parse dom.iframes,
      strEndsWith a.filename ".html" = true) := by
  refine ⟨?_, ?_, getExternalScripts_endsWith parse dom.scripts, ?_,
    getIframeHtml_endsWith parse dom.iframes⟩
  · apply matchesNameRegex_sanitize
    rw [String.data_append]
    simp
  · exact sanitizeFilename_endsWith_html _ hlen
  · intro a ha
    refine ⟨getInlineScriptsAux_filename _ 0 a ha, ?_⟩
    obtain ⟨n, hn⟩ := getInlineScriptsAux_filename _ 0 a ha
    rw [hn]
    exact strEndsWith_append _ _

/-- Witness for the amended claim C1 on a concrete page. -/
theorem claim1_names_witness :
    (getFilenameFromUrl parseX domFull.href).data.length ≤ 195 ∧
    matchesNameRegex (getCurrentPageHtml parseX domFull).filename = true ∧
    strEndsWith
      ({ url := some "https://x.test/a.js", filename := "a.js",
         type := "external-js" } : Asset).filename ".js" = true := by
  have h := claim1_names parseX domFull (by decide)
  exact ⟨by decide, h.1, h.2.2.1 _ (by decide)⟩

/-! ### Claim C8 — stage lemmas for the heuristic formatter -/

theorem cleanFrag_chars (t : List Char) (h : cleanFrag t = true) :
    ∀ c ∈ t, cleanFragChar c = true := by
  unfold cleanFrag at h
  simp only [Bool.and_eq_true, List.all_eq_true] at h
  exact h.1

theorem cleanFragChar_spec (c : Char) (h : cleanFragChar c = true) :
    ¬ c = ';' ∧ ¬ c = '{' ∧ ¬ c = '}' ∧ ¬ c = ',' ∧ ¬ c = '\n' :=
  have h2 := of_decide_eq_true h
  ⟨h2.1, h2.2.1, h2.2.2.1, h2.2.2.2.1, h2.2.2.2.2.1⟩

theorem cleanFrag_head (c : Char) (t : List Char) (h : cleanFrag (c :: t) = true) :
    isWS c = false := by
  unfold cleanFrag at h
  simp only [Bool.and_eq_true] at h
  simpa using h.2

theorem indSp_mem (l : Nat) : ∀ c ∈ indSp l, c = ' ' := by
  intro c hc
  exact List.eq_of_mem_replicate hc

theorem catUnits_cons (f : BUnit → List Char) (u : BUnit) (us : List BUnit) :
    catUnits f (u :: us) = f u ++ catUnits f us := rfl

theorem catUnits_mem (f : BUnit → List Char) :
    ∀ (us : List BUnit) (c : Char), c ∈ catUnits f us → ∃ u ∈ us, c ∈ f u := by
  intro us
  induction us with
  | nil => intro c hc; simp [catUnits] at hc
  | cons u rest ih =>
    intro c hc
    rcases List.mem_append.mp hc with h | h
    · exact ⟨u, List.mem_cons_self _ _, h⟩
    · obtain ⟨v, hv, hcv⟩ := ih c h
      exact ⟨v, List.mem_cons_of_mem _ hv, hcv⟩

theorem replSemi_append (a b : List Char) :
    replSemi (a ++ b) = replSemi a ++ replSemi b := by
  induction a with
  | nil => rfl
  | cons c t ih => by_cases h : c = ';' <;> simp [replSemi, h, ih]

theorem replOpen_append (a b : List Char) :
    replOpen (a ++ b) = replOpen a ++ replOpen b := by
  induction a with
  | nil => rfl
  | cons c t ih => by_cases h : c = '{' <;> simp [replOpen, h, ih]

theorem replClose_append (a b : List Char) :
    replClose (a ++ b) = replClose a ++ replClose b := by
  induction a with
  | nil => rfl
  | cons c t ih => by_cases h : c = '}' <;> simp [replClose, h, ih]

theorem replSemi_id (l : List Char) (h : ∀ c ∈ l, ¬ c = ';') : replSemi l = l := by
  induction l with
  | nil => rfl
  | cons c t ih =>
    have hc := h c (List.mem_cons_self _ _)
    have ih2 := ih (fun d hd => h d (List.mem_cons_of_mem _ hd))
    simp [replSemi, hc, ih2]

theorem replOpen_id (l : List Char) (h : ∀ c ∈ l, ¬ c = '{') : replOpen l = l := by
  induction l with
  | nil => rfl
  | cons c t ih =>
    have hc := h c (List.mem_cons_self _ _)
    have ih2 := ih (fun d hd => h d (List.mem_cons_of_mem _ hd))
    simp [replOpen, hc, ih2]

theorem replClose_id (l : List Char) (h : ∀ c ∈ l, ¬ c = '}') : replClose l = l := by
  induction l with
  | nil => rfl
  | cons c t ih =>
    have hc := h c (List.mem_cons_self _ _)
    have ih2 := ih (fun d hd => h d (List.mem_cons_of_mem _ hd))
    simp [replClose, hc, ih2]

theorem replSemi_indSp (l : Nat) : replSemi (indSp l) = indSp l :=
  replSemi_id _ (fun c hc => by rw [indSp_mem l c hc]; decide)

theorem replOpen_indSp (l : Nat) : replOpen (indSp l) = indSp l :=
  replOpen_id _ (fun c hc => by rw [indSp_mem l c hc]; decide)

theorem replClose_indSp (l : Nat) : replClose (indSp l) = indSp l :=
  replClose_id _ (fun c hc => by rw [indSp_mem l c hc]; decide)

theorem replSemi_frag (t : List Char) (ht : ∀ c ∈ t, cleanFragChar c = true) :
    replSemi t = t :=
  replSemi_id t (fun c hc => (cleanFragChar_spec c (ht c hc)).1)

theorem replOpen_frag (t : List Char) (ht : ∀ c ∈ t, cleanFragChar c = true) :
    replOpen t = t :=
  replOpen_id t (fun c hc => (cleanFragChar_spec c (ht c hc)).2.1)

theorem replClose_frag (t : List Char) (ht : ∀ c ∈ t, cleanFragChar c = true) :
    replClose t = t :=
  replClose_id t (fun c hc => (cleanFragChar_spec c (ht c hc)).2.2.1)

theorem stageA_unit (u : BUnit) (hc : cleanUnit u = true) :
    replClose (replOpen (replSemi (srcOfUnit u))) = unitA u := by
  cases u with
  | semi l t =>
    have ht := cleanFrag_chars t hc
    simp [srcOfUnit, rawLine, unitA,
      replSemi_append, replOpen_append, replClose_append,
      replSemi_indSp, replOpen_indSp, replClose_indSp,
      replSemi_frag t ht, replOpen_frag t ht, replClose_frag t ht,
      replSemi, replOpen, replClose]
  | bopen l h0 =>
    have ht := cleanFrag_chars h0 hc
    simp [srcOfUnit, rawLine, unitA,
      replSemi_append, replOpen_append, replClose_append,
      replSemi_indSp, replOpen_indSp, replClose_indSp,
      replSemi_frag h0 ht, replOpen_frag h0 ht, replClose_frag h0 ht,
      replSemi, replOpen, replClose]
  | bclose l =>
    simp [srcOfUnit, rawLine, unitA,
      replSemi_append, replOpen_append, replClose_append,
      replSemi_indSp, replOpen_indSp, replClose_indSp,
      replSemi, replOpen, replClose]

theorem stageA_cat (us : List BUnit) (hc : ∀ u ∈ us, cleanUnit u = true) :
    replClose (replOpen (replSemi (catUnits srcOfUnit us))) = catUnits unitA us := by
  induction us with
  | nil => rfl
  | cons u rest ih =>
    rw [catUnits_cons, catUnits_cons]
    rw [replSemi_append, replOpen_append, replClose_append]
    rw [stageA_unit u (hc u (List.mem_cons_self _ _)),
      ih (fun v hv => hc v (List.mem_cons_of_mem _ hv))]

theorem replCommaGo_id (l : List Char) (h : ∀ c ∈ l, ¬ c = ',') :
    replCommaGo l false [] = l := by
  induction l with
  | nil => rfl
  | cons c t ih =>
    have hc := h c (List.mem_cons_self _ _)
    have ih2 := ih (fun d hd => h d (List.mem_cons_of_mem _ hd))
    simp [replCommaGo, hc, ih2]

theorem unitA_no_comma (u : BUnit) (hc : cleanUnit u = true) :
    ∀ c ∈ unitA u, ¬ c = ',' := by
  cases u with
  | semi l t =>
    intro c hcm
    simp only [unitA, List.append_assoc, List.mem_append] at hcm
    rcases hcm with h | h | h
    · rw [indSp_mem l c h]; decide
    · exact (cleanFragChar_spec c (cleanFrag_chars t hc c h)).2.2.2.1
    · simp only [List.mem_cons, List.not_mem_nil, or_false] at h
      rcases h with h | h | h
      all_goals (subst h; decide)
  | bopen l h0 =>
    intro c hcm
    simp only [unitA, List.append_assoc, List.mem_append] at hcm
    rcases hcm with h | h | h
    · rw [indSp_mem l c h]; decide
    · exact (cleanFragChar_spec c (cleanFrag_chars h0 hc c h)).2.2.2.1
    · simp only [List.mem_cons, List.not_mem_nil, or_false] at h
      rcases h with h | h | h
      all_goals (subst h; decide)
  | bclose l =>
    intro c hcm
    simp only [unitA, List.mem_append] at hcm
    rcases hcm with h | h
    · rw [indSp_mem l c h]; decide
    · simp only [List.mem_cons, List.not_mem_nil, or_false] at h
      rcases h with h | h | h | h
      all_goals (subst h; decide)

theorem replComma_cat (us : List BUnit) (hc : ∀ u ∈ us, cleanUnit u = true) :
    replComma (catUnits unitA us) = catUnits unitA us := by
  apply replCommaGo_id
  intro c hcm
  obtain ⟨u, hu, hcu⟩ := catUnits_mem unitA us c hcm
  exact unitA_no_comma u (hc u hu) c hcu

theorem indSp_ws (l : Nat) : ∀ c ∈ indSp l, isWS c = true ∧ ¬ c = '\n' := by
  intro c hc
  rw [indSp_mem l c hc]
  exact ⟨by decide, by decide⟩

theorem collapseNlGo_copy (l : List Char) (h : ∀ c ∈ l, ¬ c = '\n') :
    ∀ k, collapseNlGo (l ++ k) false [] = l ++ collapseNlGo k false [] := by
  induction l with
  | nil => intro k; rfl
  | cons c t ih =>
    intro k
    have hc := h c (List.mem_cons_self _ _)
    have ih2 := ih (fun d hd => h d (List.mem_cons_of_mem _ hd)) k
    simp [collapseNlGo, hc, ih2]

theorem collapseNlGo_ws_run (w : List Char) (hw : ∀ c ∈ w, isWS c = true ∧ ¬ c = '\n') :
    ∀ (c : Char), isWS c = false → ∀ k buf,
      collapseNlGo (w ++ c :: k) true buf =
        '\n' :: (buf.reverse ++ (w ++ c :: collapseNlGo k false [])) := by
  induction w with
  | nil =>
    intro c hc k buf
    have hcn : ¬ c = '\n' := by
      intro h; rw [h] at hc; exact absurd hc (by decide)
    simp [collapseNlGo, hcn, hc]
  | cons a w2 ih =>
    intro c hc k buf
    have ha := hw a (List.mem_cons_self _ _)
    have ih2 := ih (fun d hd => hw d (List.mem_cons_of_mem _ hd)) c hc k (a :: buf)
    have step : collapseNlGo ((a :: w2) ++ c :: k) true buf
        = collapseNlGo (w2 ++ c :: k) true (a :: buf) := by
      rw [show collapseNlGo ((a :: w2) ++ c :: k) true buf
        = (if a = '\n' then collapseNlGo (w2 ++ c :: k) true []
           else if isWS a then collapseNlGo (w2 ++ c :: k) true (a :: buf)
           else '\n' :: (buf.reverse ++ a :: collapseNlGo (w2 ++ c :: k) false []))
        from rfl]
      rw [if_neg ha.2, if_pos ha.1]
    rw [step, ih2]
    simp [List.append_assoc]

theorem collapseNlGo_ws_nl (w : List Char) (hw : ∀ c ∈ w, isWS c = true ∧ ¬ c = '\n') :
    ∀ k buf, collapseNlGo (w ++ '\n' :: k) true buf = collapseNlGo k true [] := by
  induction w with
  | nil => intro k buf; simp [collapseNlGo]
  | cons a w2 ih =>
    intro k buf
    have ha := hw a (List.mem_cons_self _ _)
    have ih2 := ih (fun d hd => hw d (List.mem_cons_of_mem _ hd)) k (a :: buf)
    have step : collapseNlGo ((a :: w2) ++ '\n' :: k) true buf
        = collapseNlGo (w2 ++ '\n' :: k) true (a :: buf) := by
      rw [show collapseNlGo ((a :: w2) ++ '\n' :: k) true buf
        = (if a = '\n' then collapseNlGo (w2 ++ '\n' :: k) true []
           else if isWS a then collapseNlGo (w2 ++ '\n' :: k) true (a :: buf)
           else '\n' :: (buf.reverse ++ a :: collapseNlGo (w2 ++ '\n' :: k) false []))
        from rfl]
      rw [if_neg ha.2, if_pos ha.1]
    rw [step, ih2]

theorem collapseNlGo_nl_nl (k : List Char) :
    collapseNlGo ('\n' :: '\n' :: k) false [] = collapseNlGo k true [] := by
  simp [collapseNlGo]

theorem collapseNlGo_line (l : Nat) (c0 : Char) (t2 : List Char)
    (h0 : isWS c0 = false) (hn : ∀ c ∈ t2, ¬ c = '\n') (k : List Char) :
    collapseNlGo (indSp l ++ c0 :: (t2 ++ '\n' :: '\n' :: k)) true [] =
      '\n' :: (indSp l ++ c0 :: (t2 ++ collapseNlGo k true [])) := by
  rw [collapseNlGo_ws_run (indSp l) (indSp_ws l) c0 h0 (t2 ++ '\n' :: '\n' :: k) []]
  rw [collapseNlGo_copy t2 hn ('\n' :: '\n' :: k)]
  rw [collapseNlGo_nl_nl]
  simp

theorem collapseNlGo_close (l : Nat) (k : List Char) :
    collapseNlGo (indSp l ++ '\n' :: '}' :: '\n' :: '\n' :: k) true [] =
      '\n' :: '}' :: collapseNlGo k true [] := by
  rw [collapseNlGo_ws_nl (indSp l) (indSp_ws l) ('}' :: '\n' :: '\n' :: k) []]
  rw [show ('}' :: '\n' :: '\n' :: k) = [] ++ '}' :: ('\n' :: '\n' :: k) from rfl]
  rw [collapseNlGo_ws_run [] (by simp) '}' (by decide) ('\n' :: '\n' :: k) []]
  rw [collapseNlGo_nl_nl k]
  simp

theorem collapseNl_units (us : List BUnit) (hc : ∀ u ∈ us, cleanUnit u = true) :
    collapseNlGo (catUnits unitA us) true [] = '\n' :: catUnits flatLine us := by
  induction us with
  | nil => rfl
  | cons u rest ih =>
    have hcu := hc u (List.mem_cons_self _ _)
    have ih2 := ih (fun v hv => hc v (List.mem_cons_of_mem _ hv))
    cases u with
    | semi l t =>
      have ht := cleanFrag_chars t hcu
      rw [catUnits_cons, catUnits_cons]
      cases t with
      | nil =>
        have hline := collapseNlGo_line l ';' [] (by decide) (by simp)
          (catUnits unitA rest)
        simp only [unitA, flatLine, List.append_assoc, List.nil_append,
          List.cons_append] at hline ⊢
        rw [hline, ih2]
      | cons c0 t2 =>
        have h0 : isWS c0 = false := cleanFrag_head c0 t2 hcu
        have hn : ∀ c ∈ t2 ++ [';'], ¬ c = '\n' := by
          intro c hcm
          rcases List.mem_append.mp hcm with h | h
          · exact (cleanFragChar_spec c
              (ht c (List.mem_cons_of_mem _ h))).2.2.2.2
          · simp only [List.mem_singleton] at h
            subst h; decide
        have hline := collapseNlGo_line l c0 (t2 ++ [';']) h0 hn
          (catUnits unitA rest)
        simp only [unitA, flatLine, List.append_assoc, List.cons_append,
          List.singleton_append, List.nil_append] at hline ⊢
        rw [hline, ih2]
    | bopen l h0f =>
      have ht := cleanFrag_chars h0f hcu
      rw [catUnits_cons, catUnits_cons]
      cases h0f with
      | nil =>
        have hline := collapseNlGo_line l '{' [] (by decide) (by simp)
          (catUnits unitA rest)
        simp only [unitA, flatLine, List.append_assoc, List.nil_append,
          List.cons_append] at hline ⊢
        rw [hline, ih2]
      | cons c0 t2 =>
        have h0 : isWS c0 = false := cleanFrag_head c0 t2 hcu
        have hn : ∀ c ∈ t2 ++ ['{'], ¬ c = '\n' := by
          intro c hcm
          rcases List.mem_append.mp hcm with h | h
          · exact (cleanFragChar_spec c
              (ht c (List.mem_cons_of_mem _ h))).2.2.2.2
          · simp only [List.mem_singleton] at h
            subst h; decide
        have hline := collapseNlGo_line l c0 (t2 ++ ['{']) h0 hn
          (catUnits unitA rest)
        simp only [unitA, flatLine, List.append_assoc, List.cons_append,
          List.singleton_append, List.nil_append] at hline ⊢
        rw [hline, ih2]
    | bclose l =>
      rw [catUnits_cons, catUnits_cons]
      have hclose := collapseNlGo_close l (catUnits unitA rest)
      simp only [unitA, flatLine, List.append_assoc, List.cons_append,
        List.nil_append] at hclose ⊢
      rw [hclose, ih2]

theorem collapseNl_top (us : List BUnit) (hc : ∀ u ∈ us, cleanUnit u = true)
    (hh : notCloseHead us) :
    collapseNl (catUnits unitA us) = catUnits flatLine us := by
  cases us with
  | nil => rfl
  | cons u rest =>
    have hcu := hc u (List.mem_cons_self _ _)
    have hrest := collapseNl_units rest
      (fun v hv => hc v (List.mem_cons_of_mem _ hv))
    cases u with
    | semi l t =>
      have ht := cleanFrag_chars t hcu
      have hnl : ∀ c ∈ indSp l ++ (t ++ [';']), ¬ c = '\n' := by
        intro c hcm
        rcases List.mem_append.mp hcm with h | h
        · rw [indSp_mem l c h]; decide
        · rcases List.mem_append.mp h with h2 | h2
          · exact (cleanFragChar_spec c (ht c h2)).2.2.2.2
          · simp only [List.mem_singleton] at h2
            subst h2; decide
      unfold collapseNl
      rw [catUnits_cons]
      rw [show unitA (BUnit.semi l t) ++ catUnits unitA rest
        = (indSp l ++ (t ++ [';'])) ++ ('\n' :: '\n' :: catUnits unitA rest) from by
          simp [unitA, List.append_assoc]]
      rw [collapseNlGo_copy _ hnl, collapseNlGo_nl_nl, hrest]
      simp [catUnits_cons, flatLine, List.append_assoc]
    | bopen l h0f =>
      have ht := cleanFrag_chars h0f hcu
      have hnl : ∀ c ∈ indSp l ++ (h0f ++ ['{']), ¬ c = '\n' := by
        intro c hcm
        rcases List.mem_append.mp hcm with h | h
        · rw [indSp_mem l c h]; decide
        · rcases List.mem_append.mp h with h2 | h2
          · exact (cleanFragChar_spec c (ht c h2)).2.2.2.2
          · simp only [List.mem_singleton] at h2
            subst h2; decide
      unfold collapseNl
      rw [catUnits_cons]
      rw [show unitA (BUnit.bopen l h0f) ++ catUnits unitA rest
        = (indSp l ++ (h0f ++ ['{'])) ++ ('\n' :: '\n' :: catUnits unitA rest) from by
          simp [unitA, List.append_assoc]]
      rw [collapseNlGo_copy _ hnl, collapseNlGo_nl_nl, hrest]
      simp [catUnits_cons, flatLine, List.append_assoc]
    | bclose l => exact absurd hh (by simp [notCloseHead])

theorem flatLine_eq (u : BUnit) : flatLine u = flatBody u ++ ['\n'] := by
  cases u <;> simp [flatLine, flatBody, List.append_assoc]

theorem flatBody_no_nl (u : BUnit) (hc : cleanUnit u = true) :
    ∀ c ∈ flatBody u, ¬ c = '\n' := by
  cases u with
  | semi l t =>
    have ht := cleanFrag_chars t hc
    intro c hcm
    simp only [flatBody, List.append_assoc, List.mem_append] at hcm
    rcases hcm with h | h | h
    · rw [indSp_mem l c h]; decide
    · exact (cleanFragChar_spec c (ht c h)).2.2.2.2
    · simp only [List.mem_singleton] at h; subst h; decide
  | bopen l h0f =>
    have ht := cleanFrag_chars h0f hc
    intro c hcm
    simp only [flatBody, List.append_assoc, List.mem_append] at hcm
    rcases hcm with h | h | h
    · rw [indSp_mem l c h]; decide
    · exact (cleanFragChar_spec c (ht c h)).2.2.2.2
    · simp only [List.mem_singleton] at h; subst h; decide
  | bclose l =>
    intro c hcm
    simp only [flatBody, List.mem_singleton] at hcm
    subst hcm; decide

theorem tripleNlGo_copy (l : List Char) (h : ∀ c ∈ l, ¬ c = '\n') :
    ∀ k, tripleNlGo (l ++ k) 0 = l ++ tripleNlGo k 0 := by
  induction l with
  | nil => intro k; rfl
  | cons c t ih =>
    intro k
    have hc := h c (List.mem_cons_self _ _)
    have ih2 := ih (fun d hd => h d (List.mem_cons_of_mem _ hd)) k
    simp [tripleNlGo, hc, ih2, flushNl]

theorem tripleNlGo_head1 (x : List Char) (hk : x.head? ≠ some '\n') :
    tripleNlGo x 1 = '\n' :: tripleNlGo x 0 := by
  cases x with
  | nil => simp [tripleNlGo, flushNl]
  | cons c k =>
    have hc : ¬ c = '\n' := by
      intro h; subst h; exact hk rfl
    simp [tripleNlGo, hc, flushNl]

theorem flatBody_head (u : BUnit) (hc : cleanUnit u = true) :
    ∃ c0 k0, flatBody u = c0 :: k0 ∧ ¬ c0 = '\n' := by
  cases u with
  | semi l t =>
    rcases hind : indSp l with _ | ⟨a, w⟩
    · cases t with
      | nil => exact ⟨';', [], by simp [flatBody, hind], by decide⟩
      | cons c0 t2 =>
        refine ⟨c0, t2 ++ [';'], by simp [flatBody, hind], ?_⟩
        exact (cleanFragChar_spec c0
          (cleanFrag_chars _ hc c0 (List.mem_cons_self _ _))).2.2.2.2
    · have ha : a = ' ' := indSp_mem l a (by rw [hind]; exact List.mem_cons_self _ _)
      refine ⟨a, w ++ (t ++ [';']), by simp [flatBody, hind], ?_⟩
      rw [ha]; decide
  | bopen l h0f =>
    rcases hind : indSp l with _ | ⟨a, w⟩
    · cases h0f with
      | nil => exact ⟨'{', [], by simp [flatBody, hind], by decide⟩
      | cons c0 t2 =>
        refine ⟨c0, t2 ++ ['{'], by simp [flatBody, hind], ?_⟩
        exact (cleanFragChar_spec c0
          (cleanFrag_chars _ hc c0 (List.mem_cons_self _ _))).2.2.2.2
    · have ha : a = ' ' := indSp_mem l a (by rw [hind]; exact List.mem_cons_self _ _)
      refine ⟨a, w ++ (h0f ++ ['{']), by simp [flatBody, hind], ?_⟩
      rw [ha]; decide
  | bclose l => exact ⟨'}', [], rfl, by decide⟩

theorem catFlats_head (us : List BUnit) (hc : ∀ u ∈ us, cleanUnit u = true) :
    (catUnits flatLine us).head? ≠ some '\n' := by
  cases us with
  | nil => simp [catUnits]
  | cons u rest =>
    obtain ⟨c0, k0, hb, hcn⟩ := flatBody_head u (hc u (List.mem_cons_self _ _))
    rw [catUnits_cons, flatLine_eq, hb]
    simp [hcn]

theorem tripleNl_units (us : List BUnit) (hc : ∀ u ∈ us, cleanUnit u = true) :
    tripleNl (catUnits flatLine us) = catUnits flatLine us := by
  unfold tripleNl
  induction us with
  | nil => rfl
  | cons u rest ih =>
    have hcu := hc u (List.mem_cons_self _ _)
    have hcr : ∀ v ∈ rest, cleanUnit v = true :=
      fun v hv => hc v (List.mem_cons_of_mem _ hv)
    rw [catUnits_cons, flatLine_eq, List.append_assoc]
    rw [tripleNlGo_copy (flatBody u) (flatBody_no_nl u hcu)]
    rw [show ['\n'] ++ catUnits flatLine rest = '\n' :: catUnits flatLine rest from rfl]
    rw [show tripleNlGo ('\n' :: catUnits flatLine rest) 0
      = tripleNlGo (catUnits flatLine rest) 1 from by simp [tripleNlGo]]
    rw [tripleNlGo_head1 (catUnits flatLine rest) (catFlats_head rest hcr)]
    rw [ih hcr]

theorem splitOnChar_sep (a : List Char) (h : ∀ c ∈ a, ¬ c = '\n') :
    ∀ k, splitOnChar '\n' (a ++ '\n' :: k) = a :: splitOnChar '\n' k := by
  induction a with
  | nil => intro k; simp [splitOnChar]
  | cons c t ih =>
    intro k
    have hc := h c (List.mem_cons_self _ _)
    have ih2 := ih (fun d hd => h d (List.mem_cons_of_mem _ hd)) k
    simp [splitOnChar, hc, ih2]

theorem split_units (us : List BUnit) (hc : ∀ u ∈ us, cleanUnit u = true) :
    splitOnChar '\n' (catUnits flatLine us) = us.map flatBody ++ [[]] := by
  induction us with
  | nil => rfl
  | cons u rest ih =>
    have hcu := hc u (List.mem_cons_self _ _)
    have hcr : ∀ v ∈ rest, cleanUnit v = true :=
      fun v hv => hc v (List.mem_cons_of_mem _ hv)
    rw [catUnits_cons, flatLine_eq, List.append_assoc]
    rw [show ['\n'] ++ catUnits flatLine rest = '\n' :: catUnits flatLine rest from rfl]
    rw [splitOnChar_sep (flatBody u) (flatBody_no_nl u hcu)]
    rw [ih hcr]
    simp

theorem dropWhile_ws_spaces (n : Nat) :
    ∀ x : List Char,
      List.dropWhile isWS (List.replicate n ' ' ++ x) = List.dropWhile isWS x := by
  induction n with
  | zero => intro x; rfl
  | succ m ih =>
    intro x
    have hsp : isWS ' ' = true := by decide
    simp [List.replicate_succ, List.dropWhile_cons, hsp, ih x]

theorem dropWhile_nonws_head (x : List Char)
    (h1 : ∀ c, x.head? = some c → isWS c = false) :
    List.dropWhile isWS x = x := by
  cases x with
  | nil => rfl
  | cons c t =>
    have := h1 c rfl
    simp [List.dropWhile_cons, this]

theorem jsTrim_ind_frag (l : Nat) (x : List Char)
    (h1 : ∀ c, x.head? = some c → isWS c = false)
    (h2 : ∀ c, x.reverse.head? = some c → isWS c = false) :
    jsTrim (indSp l ++ x) = x := by
  unfold jsTrim
  rw [show indSp l = List.replicate (2 * l) ' ' from rfl, dropWhile_ws_spaces]
  rw [dropWhile_nonws_head x h1]
  rw [dropWhile_nonws_head x.reverse h2]
  exact List.reverse_reverse x

theorem jsTrim_frag_mark (t : List Char) (hf : cleanFrag t = true) (d : Char)
    (hd : isWS d = false) (l : Nat) :
    jsTrim (indSp l ++ (t ++ [d])) = t ++ [d] := by
  apply jsTrim_ind_frag
  · intro c hcm
    cases t with
    | nil =>
      simp only [List.nil_append, List.head?_cons, Option.some.injEq] at hcm
      subst hcm; exact hd
    | cons c0 t2 =>
      simp only [List.cons_append, List.head?_cons, Option.some.injEq] at hcm
      subst hcm
      exact cleanFrag_head c0 t2 hf
  · intro c hcm
    rw [List.reverse_append] at hcm
    simp only [List.reverse_singleton, List.singleton_append, List.head?_cons,
      Option.some.injEq] at hcm
    subst hcm; exact hd

theorem containsChar_false (x : List Char) (c : Char) (h : ∀ d ∈ x, ¬ d = c) :
    containsChar x c = false := by
  unfold containsChar
  rw [List.any_eq_false]
  intro d hd
  simpa using h d hd

theorem containsChar_true (x : List Char) (c : Char) (h : c ∈ x) :
    containsChar x c = true := by
  unfold containsChar
  rw [List.any_eq_true]
  exact ⟨c, h, by simp⟩

theorem indentLines_units (l : Nat) (us : List BUnit) (hb : Bal l us)
    (hc : ∀ u ∈ us, cleanUnit u = true) :
    ∀ tail, indentLines (us.map flatBody ++ tail) l
      = us.map rawLine ++ indentLines tail l := by
  induction hb with
  | nil l2 => intro tail; simp
  | semi l2 t us2 hus ihus =>
    intro tail
    have hcu : cleanFrag t = true := hc _ (List.mem_cons_self _ _)
    have hcr : ∀ u ∈ us2, cleanUnit u = true :=
      fun u hu => hc u (List.mem_cons_of_mem _ hu)
    have htr := jsTrim_frag_mark t hcu ';' (by decide) l2
    have hne : ¬ (t ++ [';']) = [] := by simp
    have hcl : containsChar (t ++ [';']) '}' = false := by
      apply containsChar_false
      intro d hd
      rcases List.mem_append.mp hd with h | h
      · exact (cleanFragChar_spec d (cleanFrag_chars t hcu d h)).2.2.1
      · simp only [List.mem_singleton] at h; subst h; decide
    have hop : containsChar (t ++ [';']) '{' = false := by
      apply containsChar_false
      intro d hd
      rcases List.mem_append.mp hd with h | h
      · exact (cleanFragChar_spec d (cleanFrag_chars t hcu d h)).2.1
      · simp only [List.mem_singleton] at h; subst h; decide
    have hflat : flatBody (BUnit.semi l2 t) = indSp l2 ++ (t ++ [';']) := by
      simp [flatBody, List.append_assoc]
    have hraw : rawLine (BUnit.semi l2 t) = indSp l2 ++ (t ++ [';']) := by
      simp [rawLine, List.append_assoc]
    simp only [List.map_cons, List.cons_append, hflat, hraw]
    rw [show indentLines ((indSp l2 ++ (t ++ [';'])) :: (List.map flatBody us2 ++ tail)) l2
      = (indSp l2 ++ (t ++ [';'])) :: indentLines (List.map flatBody us2 ++ tail) l2 from by
        simp only [indentLines, htr, hne, hcl, hop, Bool.false_eq_true, if_false,
          ite_false, if_neg, not_false_iff]]
    rw [ihus hcr tail]
  | block l2 hstr body us2 hbody hus ihbody ihus =>
    intro tail
    have hcu : cleanFrag hstr = true := hc _ (List.mem_cons_self _ _)
    have hcb : ∀ u ∈ body, cleanUnit u = true := fun u hu =>
      hc u (List.mem_cons_of_mem _ (List.mem_append_left _ hu))
    have hcus : ∀ u ∈ us2, cleanUnit u = true := fun u hu =>
      hc u (List.mem_cons_of_mem _
        (List.mem_append_right _ (List.mem_cons_of_mem _ hu)))
    have htr := jsTrim_frag_mark hstr hcu '{' (by decide) l2
    have hne : ¬ (hstr ++ ['{']) = [] := by simp
    have hcl : containsChar (hstr ++ ['{']) '}' = false := by
      apply containsChar_false
      intro d hd
      rcases List.mem_append.mp hd with h | h
      · exact (cleanFragChar_spec d (cleanFrag_chars hstr hcu d h)).2.2.1
      · simp only [List.mem_singleton] at h; subst h; decide
    have hop : containsChar (hstr ++ ['{']) '{' = true :=
      containsChar_true _ _ (List.mem_append_right _ (List.mem_singleton.mpr rfl))
    have hflat : flatBody (BUnit.bopen l2 hstr) = indSp l2 ++ (hstr ++ ['{']) := by
      simp [flatBody, List.append_assoc]
    have hraw : rawLine (BUnit.bopen l2 hstr) = indSp l2 ++ (hstr ++ ['{']) := by
      simp [rawLine, List.append_assoc]
    simp only [List.map_cons, List.map_append, List.cons_append, List.append_assoc,
      hflat, hraw]
    rw [show indentLines ((indSp l2 ++ (hstr ++ ['{'])) ::
        (List.map flatBody body ++ (flatBody (BUnit.bclose l2) ::
          (List.map flatBody us2 ++ tail)))) l2
      = (indSp l2 ++ (hstr ++ ['{'])) :: indentLines
          (List.map flatBody body ++ (flatBody (BUnit.bclose l2) ::
            (List.map flatBody us2 ++ tail))) (l2 + 1) from by
        simp only [indentLines, htr, hne, hcl, hop, Bool.false_eq_true, if_false,
          ite_false, if_neg, not_false_iff, if_true, ite_true]]
    rw [ihbody hcb (flatBody (BUnit.bclose l2) :: (List.map flatBody us2 ++ tail))]
    rw [show indentLines (flatBody (BUnit.bclose l2) ::
        (List.map flatBody us2 ++ tail)) (l2 + 1)
      = (indSp l2 ++ ['}']) :: indentLines (List.map flatBody us2 ++ tail) l2 from by
        have htrc : jsTrim ['}'] = ['}'] := by decide
        have hnec : ¬ (['}'] : List Char) = [] := by simp
        have hclc : containsChar ['}'] '}' = true :=
          containsChar_true _ _ (List.mem_singleton.mpr rfl)
        have hopc : containsChar ['}'] '{' = false := by
          apply containsChar_false
          intro d hd
          simp only [List.mem_singleton] at hd; subst hd; decide
        simp only [flatBody, indentLines, htrc, hnec, hclc, hopc,
          Bool.false_eq_true, if_false, ite_false, if_neg, not_false_iff,
          if_true, ite_true, Nat.add_sub_cancel]]
    rw [ihus hcus tail]
    rw [show rawLine (BUnit.bclose l2) = indSp l2 ++ ['}'] from rfl]

theorem joinNl_lines : ∀ us : List BUnit,
    joinNl (us.map rawLine ++ [[]]) = catUnits srcOfUnit us := by
  intro us
  induction us with
  | nil => rfl
  | cons u rest ih =>
    cases rest with
    | nil => simp [joinNl, catUnits, srcOfUnit]
    | cons v rest2 =>
      have e : List.map rawLine (u :: v :: rest2) ++ [[]]
          = rawLine u :: rawLine v :: (List.map rawLine rest2 ++ [[]]) := by simp
      rw [e]
      rw [show joinNl (rawLine u :: rawLine v :: (List.map rawLine rest2 ++ [[]]))
        = rawLine u ++ '\n' :: joinNl (rawLine v :: (List.map rawLine rest2 ++ [[]]))
        from rfl]
      have e2 : rawLine v :: (List.map rawLine rest2 ++ [[]])
          = List.map rawLine (v :: rest2) ++ [[]] := by simp
      rw [e2, ih]
      simp [catUnits, srcOfUnit, List.append_assoc]

theorem cleanUnits_of_cleanDoc : ∀ (d : Doc) (l : Nat), cleanDoc d = true →
    ∀ u ∈ unitsOf l d, cleanUnit u = true := by
  intro d
  induction d with
  | nil => intro l _ u hu; simp [unitsOf] at hu
  | stmt t r ihr =>
    intro l hcd u hu
    simp only [cleanDoc, Bool.and_eq_true] at hcd
    simp only [unitsOf] at hu
    rcases List.mem_cons.mp hu with h | h
    · subst h; exact hcd.1
    · exact ihr l hcd.2 u h
  | block hstr b r ihb ihr =>
    intro l hcd u hu
    simp only [cleanDoc, Bool.and_eq_true] at hcd
    simp only [unitsOf] at hu
    rcases List.mem_cons.mp hu with h | h
    · subst h; exact hcd.1.1
    · rcases List.mem_append.mp h with h2 | h2
      · exact ihb (l + 1) hcd.1.2 u h2
      · rcases List.mem_cons.mp h2 with h3 | h3
        · subst h3; rfl
        · exact ihr l hcd.2 u h3

theorem bal_unitsOf : ∀ (d : Doc) (l : Nat), Bal l (unitsOf l d) := by
  intro d
  induction d with
  | nil => intro l; exact Bal.nil l
  | stmt t r ihr =>
    intro l
    simp only [unitsOf]
    exact Bal.semi l t.data _ (ihr l)
  | block hstr b r ihb ihr =>
    intro l
    simp only [unitsOf]
    exact Bal.block l hstr.data _ _ (ihb (l + 1)) (ihr l)

theorem notCloseHead_unitsOf (d : Doc) (l : Nat) : notCloseHead (unitsOf l d) := by
  cases d <;> exact trivial

theorem basicBeautify_fix (d : Doc) (hcd : cleanDoc d = true) :
    basicBeautify (renderDoc d) = renderDoc d := by
  have hcu := cleanUnits_of_cleanDoc d 0 hcd
  have hbal := bal_unitsOf d 0
  unfold basicBeautify renderDoc
  dsimp only
  rw [stageA_cat _ hcu]
  rw [replComma_cat _ hcu]
  rw [collapseNl_top _ hcu (notCloseHead_unitsOf d 0)]
  rw [tripleNl_units _ hcu]
  rw [split_units _ hcu]
  rw [indentLines_units 0 _ hbal hcu [[]]]
  rw [show indentLines [[]] 0 = [[]] from rfl]
  rw [joinNl_lines]

/-! ### Claim C8 -/

/-- Claim C8: the heuristic formatter is idempotent on already-well-formatted
input (formalized as the rendering of a clean `Doc`: terminators and open
braces at line ends, close braces alone on their lines, two-space
indentation, trailing newline, no blank lines, no commas or stray control
characters, and hence no brace/semicolon adjacency for the regexes to
rewrite): applying `basicBeautify` twice equals applying it once — indeed
such input is a fixed point. -/
theorem claim8_beautify_idem (s : String) (h : WellFormatted s) :
    basicBeautify (basicBeautify s) = basicBeautify s := by
  obtain ⟨d, hcd, rfl⟩ := h
  rw [basicBeautify_fix d hcd, basicBeautify_fix d hcd]

/-- Witness for claim C8 at the concrete well-formatted document
`if (a) \x7b  b(); \x7d done();` rendered over three lines. -/
theorem claim8_beautify_idem_witness :
    WellFormatted (renderDoc docW) ∧
    basicBeautify (basicBeautify (renderDoc docW)) = basicBeautify (renderDoc docW) :=
  ⟨⟨docW, by decide, rfl⟩, claim8_beautify_idem _ ⟨docW, by decide, rfl⟩⟩

end Theorems

end EvilDL
